import Mathlib

/-!
# go-redfox: exception values and the exception Manager

A shallow embedding of `exception.go`, `constructor.go`, `manager.go` and
`lib/converter.go`.

Modelling decisions.

* An `Exception[T]` interface value is either the nil interface or a pointer to an
  `exception[T]` struct (the only implementation in the package). Pointers are
  addresses into a heap of struct values, so aliasing between the caller, the
  Manager and clones is explicit.
* A `map[string]interface{}` value is either the nil map or a reference to a map
  object in the heap; map objects are association lists.
* The Manager's `cache` is a Go map held by value in the Manager state (nil map or
  association list from codes to interface values). The `sync.RWMutex` is not
  modelled: every operation is taken as one sequential step.
* A call that panics at run time (method call on a nil interface, assignment to an
  entry of a nil map) yields `Outcome.panic`.
* Go `string` values are Lean strings; Go `int` values are Lean integers (no
  arithmetic is performed on them).
-/

namespace Redfox

/-! ## Run-time values -/

/-- Run-time panics of the Go program. `danglingPointer` is reported when an address
outside the heap is dereferenced; no Go program can produce such an address. -/
inductive Panic where
  | nilDereference
  | nilMapAssignment
  | danglingPointer
  deriving DecidableEq, Repr

/-- The result of a call: a returned value, or a run-time panic. -/
inductive Outcome (α : Type) where
  | ok (value : α)
  | panic (cause : Panic)
  deriving DecidableEq, Repr

/-- Dynamic values stored in an `interface{}`, by dynamic type. `float64` carries the
IEEE bit pattern; `bytes` carries the text spelled by the byte slice; `other` stands for
every dynamic type not listed. -/
inductive GoValue where
  | nil
  | string (x : String)
  | int (x : Int)
  | int32 (x : Int)
  | int64 (x : Int)
  | float64 (bits : Nat)
  | bool (x : Bool)
  | bytes (x : String)
  | strings (x : List String)
  | other (typeId : Nat)
  deriving DecidableEq, Repr

/-- A non-nil `error` value, given by the text its `Error()` method returns. -/
structure GoError where
  text : String
  deriving DecidableEq, Repr

/-- The constructor `errors.New`. -/
def errorsNew (text : String) : GoError := ⟨text⟩

/-- Error-code types: a comparable Go type together with the dynamic value obtained
when a code is converted to `interface{}`. -/
class ErrorCode (T : Type) where
  toInterface : T → GoValue

instance : ErrorCode String := ⟨GoValue.string⟩

instance : ErrorCode Int := ⟨GoValue.int⟩

instance : ErrorCode Bool := ⟨GoValue.bool⟩

/-! ## Go maps as association lists -/

/-- A non-nil Go map: an association list (at most one entry per key when built by
`mapAssign`). -/
abbrev GoMap (K V : Type) := List (K × V)

/-- The lookup `v, ok := m[k]`: `some v` when the key is present. -/
def mapIndex {K V : Type} [DecidableEq K] : GoMap K V → K → Option V
  | [], _ => none
  | (k', v) :: rest, k => if k' = k then some v else mapIndex rest k

/-- The assignment `m[k] = v`. -/
def mapAssign {K V : Type} [DecidableEq K] : GoMap K V → K → V → GoMap K V
  | [], k, v => [(k, v)]
  | (k', v') :: rest, k, v =>
      if k' = k then (k, v) :: rest else (k', v') :: mapAssign rest k v

/-- The builtin `delete(m, k)`. -/
def mapDelete {K V : Type} [DecidableEq K] (m : GoMap K V) (k : K) : GoMap K V :=
  m.filter (fun kv => decide (kv.1 ≠ k))

/-! ## lib/converter.go -/

/-- The function `strconv.Itoa`: base-10 text of an integer. -/
def Itoa (x : Int) : String :=
  if x < 0 then "-" ++ Nat.repr x.natAbs else Nat.repr x.natAbs

/-- The function `strconv.FormatInt` at base 10. -/
def FormatInt10 (x : Int) : String := Itoa x

/-- The function `strconv.FormatBool`. -/
def FormatBool (x : Bool) : String := if x then "true" else "false"

/-- The function `strings.Join` with the empty separator. -/
def JoinEmpty (x : List String) : String := x.foldl (fun acc s => acc ++ s) ""

/-- `lib.Stringify`. The rendering `strconv.FormatFloat(x, 'f', -1, 64)` of the Go
standard library is taken as the parameter `FormatFloat`. -/
def Stringify (FormatFloat : Nat → String) : GoValue → String
  | GoValue.string x => x
  | GoValue.int x => Itoa x
  | GoValue.int64 x => FormatInt10 x
  | GoValue.float64 x => FormatFloat x
  | GoValue.bool x => FormatBool x
  | GoValue.bytes x => x
  | GoValue.strings x => JoinEmpty x
  | _ => ""

/-! ## exception.go -/

/-- A `map[string]interface{}` value: the nil map or a reference to a map object. -/
abbrev MapRef := Option Nat

/-- The struct `exception[T]`. -/
structure exception (T : Type) where
  base : Option GoError
  message : String
  displayMessage : String
  errType : String
  errCode : T
  stackTrace : List String
  reason : GoValue
  metadata : MapRef
  statusCode : Int
  deriving DecidableEq, Repr

/-- An `Exception[T]` interface value: the nil interface or a `*exception[T]`. -/
abbrev Exception := Option Nat

/-- The struct `ExceptionView[T]`. -/
structure ExceptionView (T : Type) where
  Base : String
  Message : String
  DisplayMessage : String
  ErrType : String
  ErrCode : T
  Metadata : MapRef
  StackTrace : List String
  Reason : GoValue
  StatusCode : Int
  deriving DecidableEq, Repr

/-- The heap: `exception[T]` structs by address and metadata map objects by reference. -/
structure Heap (T : Type) where
  objs : List (exception T)
  maps : List (GoMap String GoValue)
  deriving DecidableEq, Repr

/-- The heap holding nothing. -/
def Heap.empty {T : Type} : Heap T := ⟨[], []⟩

/-- Reading the struct an interface value points to (`*e` after the nil check every
method call performs). -/
def deref {T : Type} (h : Heap T) (e : Exception) : Outcome (exception T) :=
  match e with
  | none => Outcome.panic Panic.nilDereference
  | some p =>
    match h.objs[p]? with
    | some o => Outcome.ok o
    | none => Outcome.panic Panic.danglingPointer

/-- Calling a value-receiver method: the struct is read and `f` applied to the copy. -/
def readField {T α : Type} (f : exception T → α) (h : Heap T) (e : Exception) : Outcome α :=
  match deref h e with
  | Outcome.ok o => Outcome.ok (f o)
  | Outcome.panic c => Outcome.panic c

/-- Calling a pointer-receiver mutator: the struct behind the pointer is overwritten by
`f` and the receiver itself is returned. -/
def writeField {T : Type} (f : exception T → exception T) (h : Heap T) (e : Exception) :
    Outcome (Exception × Heap T) :=
  match e with
  | none => Outcome.panic Panic.nilDereference
  | some p =>
    match h.objs[p]? with
    | some o => Outcome.ok (some p, { h with objs := h.objs.set p (f o) })
    | none => Outcome.panic Panic.danglingPointer

def Base {T : Type} (h : Heap T) (e : Exception) : Outcome (Option GoError) :=
  readField (fun o => o.base) h e

def Error {T : Type} [ErrorCode T] (FormatFloat : Nat → String) (h : Heap T) (e : Exception) :
    Outcome String :=
  readField (fun o => Stringify FormatFloat (ErrorCode.toInterface o.errCode) ++ ": " ++ o.message) h e

def StatusCode {T : Type} (h : Heap T) (e : Exception) : Outcome Int :=
  readField (fun o => o.statusCode) h e

def Message {T : Type} (h : Heap T) (e : Exception) : Outcome String :=
  readField (fun o => o.message) h e

def DisplayMessage {T : Type} (h : Heap T) (e : Exception) : Outcome String :=
  readField (fun o => o.displayMessage) h e

def ErrType {T : Type} (h : Heap T) (e : Exception) : Outcome String :=
  readField (fun o => o.errType) h e

def ErrCode {T : Type} (h : Heap T) (e : Exception) : Outcome T :=
  readField (fun o => o.errCode) h e

def Metadata {T : Type} (h : Heap T) (e : Exception) : Outcome MapRef :=
  readField (fun o => o.metadata) h e

def StackTrace {T : Type} (h : Heap T) (e : Exception) : Outcome (List String) :=
  readField (fun o => o.stackTrace) h e

def Reason {T : Type} (h : Heap T) (e : Exception) : Outcome GoValue :=
  readField (fun o => o.reason) h e

def WithErrType {T : Type} (h : Heap T) (e : Exception) (errType : String) :
    Outcome (Exception × Heap T) :=
  writeField (fun o => { o with errType := errType }) h e

def WithDisplayMessage {T : Type} (h : Heap T) (e : Exception) (message : String) :
    Outcome (Exception × Heap T) :=
  writeField (fun o => { o with displayMessage := message }) h e

def WithMetadata {T : Type} (h : Heap T) (e : Exception) (data : MapRef) :
    Outcome (Exception × Heap T) :=
  writeField (fun o => { o with metadata := data }) h e

def WithReason {T : Type} (h : Heap T) (e : Exception) (reason : GoValue) :
    Outcome (Exception × Heap T) :=
  writeField (fun o => { o with reason := reason }) h e

def WithBase {T : Type} (h : Heap T) (e : Exception) (err : Option GoError) :
    Outcome (Exception × Heap T) :=
  writeField (fun o => { o with base := err }) h e

def WithStatusCode {T : Type} (h : Heap T) (e : Exception) (statusCode : Int) :
    Outcome (Exception × Heap T) :=
  writeField (fun o => { o with statusCode := statusCode }) h e

/-- Allocation of a fresh struct: `&exception[T]{...}`. -/
def allocate {T : Type} (h : Heap T) (o : exception T) : Exception × Heap T :=
  (some h.objs.length, { h with objs := h.objs ++ [o] })

/-- The method `Clone`: a fresh struct with every field copied from the receiver. -/
def Clone {T : Type} (h : Heap T) (e : Exception) : Outcome (Exception × Heap T) :=
  match deref h e with
  | Outcome.ok o =>
    Outcome.ok (allocate h
      { base := o.base
        message := o.message
        displayMessage := o.displayMessage
        errType := o.errType
        errCode := o.errCode
        stackTrace := o.stackTrace
        reason := o.reason
        metadata := o.metadata
        statusCode := o.statusCode })
  | Outcome.panic c => Outcome.panic c

/-- The method `C`. -/
def C {T : Type} (h : Heap T) (e : Exception) : Outcome (Exception × Heap T) :=
  Clone h e

/-- The method `View`. -/
def View {T : Type} (h : Heap T) (e : Exception) : Outcome (ExceptionView T) :=
  match deref h e with
  | Outcome.ok o =>
    let b := match o.base with
      | some err => err.text
      | none => ""
    Outcome.ok
      { Base := b
        Message := o.message
        DisplayMessage := o.displayMessage
        ErrType := o.errType
        ErrCode := o.errCode
        Metadata := o.metadata
        StackTrace := o.stackTrace
        Reason := o.reason
        StatusCode := o.statusCode }
  | Outcome.panic c => Outcome.panic c

/-! ## constructor.go -/

/-- The builtin `make(map[string]interface{})`: a fresh empty map object. -/
def makeMap {T : Type} (h : Heap T) : MapRef × Heap T :=
  (some h.maps.length, { h with maps := h.maps ++ [[]] })

/-- The constructor `New`: the fields not listed in the composite literal take their
zero values. -/
def New {T : Type} (h : Heap T) (errCode : T) (message : String) : Exception × Heap T :=
  let (md, h1) := makeMap h
  allocate h1
    { base := none
      message := message
      displayMessage := ""
      errType := ""
      errCode := errCode
      stackTrace := []
      reason := GoValue.nil
      metadata := md
      statusCode := 0 }

/-- The constructor `NewWithBase`. -/
def NewWithBase {T : Type} (h : Heap T) (errCode : T) (message : String)
    (base : Option GoError) : Outcome (Exception × Heap T) :=
  let (e, h1) := New h errCode message
  WithBase h1 e base

/-- The constructor `NewForAPI`. -/
def NewForAPI {T : Type} (h : Heap T) (errCode : T) (message : String)
    (statusCode : Int) : Outcome (Exception × Heap T) :=
  let (e, h1) := New h errCode message
  WithStatusCode h1 e statusCode

/-! ## manager.go -/

/-- The struct `Manager[T]`: `cache` is the nil map (`none`) or a map from codes to
interface values. -/
structure Manager (T : Type) where
  cache : Option (GoMap T Exception)
  deriving DecidableEq, Repr

/-- The constructor `NewManager`. -/
def NewManager {T : Type} : Manager T := ⟨some []⟩

/-- The lookup `v, ok := m.cache[k]`; reading the nil map finds nothing. -/
def cacheIndex {T : Type} [DecidableEq T] (m : Manager T) (k : T) : Option Exception :=
  match m.cache with
  | none => none
  | some mp => mapIndex mp k

def Set {T : Type} (_m : Manager T) (exceptions : Option (GoMap T Exception)) : Manager T :=
  ⟨exceptions⟩

/-- The statement `m.cache[err.ErrCode()] = err`. -/
def cacheStore {T : Type} [DecidableEq T] (m : Manager T) (h : Heap T) (err : Exception) :
    Outcome (Manager T) :=
  match ErrCode h err with
  | Outcome.panic c => Outcome.panic c
  | Outcome.ok k =>
    match m.cache with
    | none => Outcome.panic Panic.nilMapAssignment
    | some mp => Outcome.ok ⟨some (mapAssign mp k err)⟩

def Add {T : Type} [DecidableEq T] (m : Manager T) (h : Heap T) (err : Exception) :
    Outcome (Manager T) :=
  cacheStore m h err

/-- The error built by `SafeAdd` and `SafeAddAll` for a colliding code. -/
def alreadyExists {T : Type} [ErrorCode T] (FormatFloat : Nat → String) (k : T) : GoError :=
  errorsNew ("exception (" ++ Stringify FormatFloat (ErrorCode.toInterface k) ++ " ) already exists")

def SafeAdd {T : Type} [DecidableEq T] [ErrorCode T] (FormatFloat : Nat → String)
    (m : Manager T) (h : Heap T) (err : Exception) : Outcome (Option GoError × Manager T) :=
  match ErrCode h err with
  | Outcome.panic c => Outcome.panic c
  | Outcome.ok k =>
    if (cacheIndex m k).isSome then
      Outcome.ok (some (alreadyExists FormatFloat k), m)
    else
      match Add m h err with
      | Outcome.panic c => Outcome.panic c
      | Outcome.ok m1 => Outcome.ok (none, m1)

def AddAll {T : Type} [DecidableEq T] (m : Manager T) (h : Heap T) :
    List Exception → Outcome (Manager T)
  | [] => Outcome.ok m
  | err :: errs =>
    match cacheStore m h err with
    | Outcome.panic c => Outcome.panic c
    | Outcome.ok m1 => AddAll m1 h errs

/-- The checking loop of `SafeAddAll`: the first code of `errs` found in the cache. -/
def firstCollision {T : Type} [DecidableEq T] (m : Manager T) (h : Heap T) :
    List Exception → Outcome (Option T)
  | [] => Outcome.ok none
  | err :: errs =>
    match ErrCode h err with
    | Outcome.panic c => Outcome.panic c
    | Outcome.ok k =>
      if (cacheIndex m k).isSome then Outcome.ok (some k) else firstCollision m h errs

def SafeAddAll {T : Type} [DecidableEq T] [ErrorCode T] (FormatFloat : Nat → String)
    (m : Manager T) (h : Heap T) (errs : List Exception) :
    Outcome (Option GoError × Manager T) :=
  match firstCollision m h errs with
  | Outcome.panic c => Outcome.panic c
  | Outcome.ok (some k) => Outcome.ok (some (alreadyExists FormatFloat k), m)
  | Outcome.ok none =>
    match AddAll m h errs with
    | Outcome.panic c => Outcome.panic c
    | Outcome.ok m1 => Outcome.ok (none, m1)

/-- The method `Get`: an absent code reads the zero value of the map's value type, the
nil interface, and `Clone` is called on what was read. -/
def Get {T : Type} [DecidableEq T] (m : Manager T) (h : Heap T) (code : T) :
    Outcome (Exception × Heap T) :=
  Clone h ((cacheIndex m code).getD none)

/-- The loop of `GetAll` over the entries of the map, in the order of the association
list (Go leaves the order unspecified). -/
def cloneAll {T : Type} (h : Heap T) :
    List Exception → List Exception → Outcome (List Exception × Heap T)
  | [], acc => Outcome.ok (acc, h)
  | e :: es, acc =>
    match Clone h e with
    | Outcome.panic c => Outcome.panic c
    | Outcome.ok (e1, h1) => cloneAll h1 es (acc ++ [e1])

def GetAll {T : Type} (m : Manager T) (h : Heap T) : Outcome (List Exception × Heap T) :=
  match m.cache with
  | none => Outcome.ok ([], h)
  | some mp => cloneAll h (mp.map (fun kv => kv.2)) []

def Size {T : Type} (m : Manager T) : Int :=
  match m.cache with
  | none => 0
  | some mp => mp.length

def IsEmpty {T : Type} (m : Manager T) : Bool := decide (Size m = 0)

def IsNotEmpty {T : Type} (m : Manager T) : Bool := decide (Size m > 0)

def Contains {T : Type} [DecidableEq T] (m : Manager T) (code : T) : Bool :=
  (cacheIndex m code).isSome

def ContainsAll {T : Type} [DecidableEq T] (m : Manager T) : List T → Bool
  | [] => true
  | code :: codes => if !(cacheIndex m code).isSome then false else ContainsAll m codes

def ContainsAny {T : Type} [DecidableEq T] (m : Manager T) : List T → Bool
  | [] => false
  | code :: codes => if (cacheIndex m code).isSome then true else ContainsAny m codes

def Remove {T : Type} [DecidableEq T] (m : Manager T) (code : T) : Manager T :=
  match m.cache with
  | none => m
  | some mp => ⟨some (mapDelete mp code)⟩

def Clear {T : Type} (_m : Manager T) : Manager T := ⟨some []⟩

/-! ## Client programs

The calls a client of the package can make, run one after the other on a heap and one
Manager. -/

/-- The six `With*` mutators with their argument. -/
inductive Mutator where
  | errType (v : String)
  | displayMessage (v : String)
  | metadata (v : MapRef)
  | reason (v : GoValue)
  | base (v : Option GoError)
  | statusCode (v : Int)
  deriving DecidableEq, Repr

/-- Calling a mutator on `e`. -/
def Mutator.call {T : Type} (μ : Mutator) (h : Heap T) (e : Exception) :
    Outcome (Exception × Heap T) :=
  match μ with
  | Mutator.errType v => WithErrType h e v
  | Mutator.displayMessage v => WithDisplayMessage h e v
  | Mutator.metadata v => WithMetadata h e v
  | Mutator.reason v => WithReason h e v
  | Mutator.base v => WithBase h e v
  | Mutator.statusCode v => WithStatusCode h e v

/-- The caller statement `md[k] = v` on a metadata map `md`. -/
def storeMapEntry {T : Type} (h : Heap T) (md : MapRef) (k : String) (v : GoValue) :
    Outcome (Heap T) :=
  match md with
  | none => Outcome.panic Panic.nilMapAssignment
  | some r =>
    match h.maps[r]? with
    | some mp => Outcome.ok { h with maps := h.maps.set r (mapAssign mp k v) }
    | none => Outcome.panic Panic.danglingPointer

/-- One call of a client program. -/
inductive Call (T : Type) where
  | new (errCode : T) (message : String)
  | newWithBase (errCode : T) (message : String) (base : Option GoError)
  | newForAPI (errCode : T) (message : String) (statusCode : Int)
  | mutate (e : Exception) (μ : Mutator)
  | clone (e : Exception)
  | makeMap
  | storeMapEntry (md : MapRef) (k : String) (v : GoValue)
  | set (exceptions : Option (GoMap T Exception))
  | add (err : Exception)
  | safeAdd (err : Exception)
  | addAll (errs : List Exception)
  | safeAddAll (errs : List Exception)
  | get (code : T)
  | getAll
  | remove (code : T)
  | clear

/-- The state a client program runs on. -/
structure World (T : Type) where
  heap : Heap T
  mgr : Manager T
  deriving DecidableEq, Repr

/-- The state after `NewManager()`, before anything else was allocated. -/
def World.start {T : Type} : World T := ⟨Heap.empty, NewManager⟩

/-- Keeping the heap of a call that returns a value and a heap. -/
def World.keepHeap {T α : Type} (w : World T) : Outcome (α × Heap T) → Outcome (World T)
  | Outcome.ok (_, h) => Outcome.ok { w with heap := h }
  | Outcome.panic c => Outcome.panic c

/-- Keeping the Manager of a call that returns one. -/
def World.keepMgr {T : Type} (w : World T) : Outcome (Manager T) → Outcome (World T)
  | Outcome.ok m => Outcome.ok { w with mgr := m }
  | Outcome.panic c => Outcome.panic c

/-- The effect of one call. -/
def exec {T : Type} [DecidableEq T] [ErrorCode T] (FormatFloat : Nat → String)
    (w : World T) : Call T → Outcome (World T)
  | Call.new c msg => Outcome.ok { w with heap := (New w.heap c msg).2 }
  | Call.newWithBase c msg b => w.keepHeap (NewWithBase w.heap c msg b)
  | Call.newForAPI c msg s => w.keepHeap (NewForAPI w.heap c msg s)
  | Call.mutate e μ => w.keepHeap (μ.call w.heap e)
  | Call.clone e => w.keepHeap (Clone w.heap e)
  | Call.makeMap => Outcome.ok { w with heap := (makeMap w.heap).2 }
  | Call.storeMapEntry md k v =>
    match storeMapEntry w.heap md k v with
    | Outcome.ok h => Outcome.ok { w with heap := h }
    | Outcome.panic c => Outcome.panic c
  | Call.set x => Outcome.ok { w with mgr := Set w.mgr x }
  | Call.add err => w.keepMgr (Add w.mgr w.heap err)
  | Call.safeAdd err =>
    match SafeAdd FormatFloat w.mgr w.heap err with
    | Outcome.ok (_, m) => Outcome.ok { w with mgr := m }
    | Outcome.panic c => Outcome.panic c
  | Call.addAll errs => w.keepMgr (AddAll w.mgr w.heap errs)
  | Call.safeAddAll errs =>
    match SafeAddAll FormatFloat w.mgr w.heap errs with
    | Outcome.ok (_, m) => Outcome.ok { w with mgr := m }
    | Outcome.panic c => Outcome.panic c
  | Call.get code => w.keepHeap (Get w.mgr w.heap code)
  | Call.getAll => w.keepHeap (GetAll w.mgr w.heap)
  | Call.remove code => Outcome.ok { w with mgr := Remove w.mgr code }
  | Call.clear => Outcome.ok { w with mgr := Clear w.mgr }

/-- Running a client program from `w`; the run stops at the first panic. -/
def run {T : Type} [DecidableEq T] [ErrorCode T] (FormatFloat : Nat → String)
    (w : World T) : List (Call T) → Outcome (World T)
  | [] => Outcome.ok w
  | c :: cs =>
    match exec FormatFloat w c with
    | Outcome.ok w1 => run FormatFloat w1 cs
    | Outcome.panic p => Outcome.panic p

/-- A call that is not `Set`. -/
def Call.isSet {T : Type} : Call T → Bool
  | Call.set _ => true
  | _ => false

/-! ## Predicates used in the statements -/

/-- The call with result `res`, made on heap `h` with receiver `e`, returned the receiver
itself, left the struct `o1` behind the receiver, and changed nothing else: every other
interface value reads as before, no struct was allocated, and the map objects are as
they were. -/
def OverwritesWith {T : Type} (res : Outcome (Exception × Heap T)) (h : Heap T)
    (e : Exception) (o1 : exception T) : Prop :=
  ∃ h1, res = Outcome.ok (e, h1) ∧ deref h1 e = Outcome.ok o1 ∧
    (∀ q, q ≠ e → deref h1 q = deref h q) ∧
    h1.maps = h.maps ∧ h1.objs.length = h.objs.length

/-- The key invariant of a Manager on a heap: every entry of the map holds an exception
whose own `ErrCode()` is the key of the entry. -/
def KeyInvariant {T : Type} (m : Manager T) (h : Heap T) : Prop :=
  ∀ mp, m.cache = some mp → ∀ k v, (k, v) ∈ mp → ErrCode h v = Outcome.ok k

/-- The states reached from `NewManager()` by client programs in which every call of
`Set` passes a mapping that satisfies the key invariant at the time of the call. -/
inductive KeyedReach {T : Type} [DecidableEq T] [ErrorCode T] (FormatFloat : Nat → String) :
    World T → Prop where
  | start : KeyedReach FormatFloat World.start
  | step (w w1 : World T) (c : Call T) :
      KeyedReach FormatFloat w →
      (∀ x, c = Call.set x → KeyInvariant ⟨x⟩ w.heap) →
      exec FormatFloat w c = Outcome.ok w1 →
      KeyedReach FormatFloat w1

/-- The call `e.WithMetadata(nil)`. -/
def Call.storesNilMetadata {T : Type} : Call T → Bool
  | Call.mutate _ (Mutator.metadata none) => true
  | _ => false

/-- Every struct of the heap has a non-nil metadata map. -/
def MetadataAllocated {T : Type} (h : Heap T) : Prop :=
  ∀ o ∈ h.objs, o.metadata ≠ none

/-- Every exception of `h` is an exception of `h1` with the same error code. -/
def CodesKept {T : Type} (h h1 : Heap T) : Prop :=
  ∀ q k, ErrCode h q = Outcome.ok k → ErrCode h1 q = Outcome.ok k

/-! ## Sample values used by the witnesses -/

/-- The struct built by `New("E1", "m1")` when its metadata map is map object 0. -/
def sampleStruct : exception String :=
  { base := none, message := "m1", displayMessage := "", errType := "", errCode := "E1",
    stackTrace := [], reason := GoValue.nil, metadata := some 0, statusCode := 0 }

/-- The heap after `New("E1", "m1")` on the empty heap: one struct, one empty map. -/
def sampleHeap : Heap String := (New Heap.empty "E1" "m1").2

/-- The Manager after `NewManagerStr().Add(e)` for the exception `e` of `sampleHeap`. -/
def sampleManager : Manager String := ⟨some [("E1", some 0)]⟩

/-- The caller expression `md[k]` on a metadata map `md`, with the comma-ok result:
`some v` when the key is present; reading the nil map finds nothing. -/
def loadMapEntry {T : Type} (h : Heap T) (md : MapRef) (k : String) : Option GoValue :=
  match md with
  | none => none
  | some r =>
    match h.maps[r]? with
    | some mp => mapIndex mp k
    | none => none

/-- The number a string of decimal digits denotes: the digits are read from the left,
each character counting for its distance from the character 0. -/
def decimalValue (s : String) : Nat :=
  s.data.foldl (fun acc c => acc * 10 + (c.toNat - 48)) 0

/-- The string consists of decimal digits only. -/
def allDigits (s : String) : Prop :=
  ∀ c ∈ s.data, 48 ≤ c.toNat ∧ c.toNat ≤ 57

/-- The keys of a mapping handed to `Set`; the nil map has none. -/
def keysOf {K V : Type} (x : Option (GoMap K V)) : List K :=
  match x with
  | none => []
  | some mp => mp.map (fun kv => kv.1)

/-- The state reached by `m.Add(e1)`, ..., `m.Add(en)` called one after the other. -/
def addOneByOne {T : Type} [DecidableEq T] (m : Manager T) (h : Heap T) :
    List Exception → Outcome (Manager T)
  | [] => Outcome.ok m
  | e :: es =>
    match Add m h e with
    | Outcome.panic c => Outcome.panic c
    | Outcome.ok m1 => addOneByOne m1 h es

/-- The last exception of the list, in argument order, whose `ErrCode()` is `k`. -/
def lastWithCode {T : Type} [DecidableEq T] (h : Heap T) (k : T) :
    List Exception → Option Exception
  | [] => none
  | e :: es =>
    match lastWithCode h k es with
    | some e1 => some e1
    | none => if ErrCode h e = Outcome.ok k then some e else none

/-- The codes of the exceptions of a list, in argument order. -/
def codesOf {T : Type} (h : Heap T) : List Exception → List T
  | [] => []
  | e :: es =>
    match ErrCode h e with
    | Outcome.ok k => k :: codesOf h es
    | Outcome.panic _ => codesOf h es

/-- The string `s` is the decimal numeral of `n`: not empty, made of decimal digits that
denote `n`, and without a leading zero (the only numeral starting with 0 is "0"). -/
def isDecimalOf (s : String) (n : Nat) : Prop :=
  s.data ≠ [] ∧ allDigits s ∧ decimalValue s = n ∧
    (s.data.head? = some '0' → s.data = ['0'])

/-! # Properties -/

/-! ## Heap lemmas -/

theorem deref_ok_iff {T : Type} (h : Heap T) (e : Exception) (o : exception T) :
    deref h e = Outcome.ok o ↔ ∃ p, e = some p ∧ h.objs[p]? = some o := by
  cases e with
  | none => simp [deref]
  | some p =>
    cases hp : h.objs[p]? with
    | none => simp [deref, hp]
    | some o1 => simp [deref, hp]

theorem writeField_of_deref {T : Type} (f : exception T → exception T) (h : Heap T)
    (e : Exception) (o : exception T) (he : deref h e = Outcome.ok o) :
    ∃ p, e = some p ∧ h.objs[p]? = some o ∧
      writeField f h e = Outcome.ok (e, { h with objs := h.objs.set p (f o) }) := by
  obtain ⟨p, rfl, hp⟩ := (deref_ok_iff h e o).1 he
  exact ⟨p, rfl, hp, by simp [writeField, hp]⟩

theorem deref_set_self {T : Type} (h : Heap T) (p : Nat) (o o1 : exception T)
    (hp : h.objs[p]? = some o) :
    deref ({ h with objs := h.objs.set p o1 } : Heap T) (some p) = Outcome.ok o1 := by
  have hlt : p < h.objs.length := by
    rcases List.getElem?_eq_some_iff.1 hp with ⟨hlt, _⟩
    exact hlt
  simp [deref, List.getElem?_set, hlt]

theorem deref_set_other {T : Type} (h : Heap T) (p : Nat) (o1 : exception T)
    (q : Exception) (hq : q ≠ some p) :
    deref ({ h with objs := h.objs.set p o1 } : Heap T) q = deref h q := by
  cases q with
  | none => rfl
  | some r =>
    have hne : p ≠ r := fun hpr => hq (by rw [hpr])
    simp [deref, List.getElem?_set, hne]

/-- A mutator call on a live receiver overwrites the struct behind it by `f` of the old
struct and touches nothing else. -/
theorem writeField_overwrites {T : Type} (f : exception T → exception T) (h : Heap T)
    (e : Exception) (o : exception T) (he : deref h e = Outcome.ok o) :
    OverwritesWith (writeField f h e) h e (f o) := by
  obtain ⟨p, rfl, hp, hw⟩ := writeField_of_deref f h e o he
  refine ⟨_, hw, deref_set_self h p o (f o) hp, ?_, rfl, ?_⟩
  · intro q hq
    exact deref_set_other h p (f o) q hq
  · simp

theorem deref_New {T : Type} (h : Heap T) (c : T) (msg : String) :
    (New h c msg).1 = some h.objs.length ∧
    deref (New h c msg).2 (New h c msg).1 = Outcome.ok
      { base := none, message := msg, displayMessage := "", errType := "", errCode := c,
        stackTrace := [], reason := GoValue.nil, metadata := some h.maps.length,
        statusCode := 0 } ∧
    (New h c msg).2.maps = h.maps ++ [[]] ∧
    (New h c msg).2.objs.length = h.objs.length + 1 ∧
    (∀ q o, deref h q = Outcome.ok o → deref (New h c msg).2 q = Outcome.ok o) := by
  refine ⟨rfl, ?_, rfl, ?_, ?_⟩
  · simp [New, makeMap, allocate, deref]
  · simp [New, makeMap, allocate]
  · intro q o hq
    obtain ⟨p, rfl, hp⟩ := (deref_ok_iff h q o).1 hq
    have hlt : p < h.objs.length := (List.getElem?_eq_some_iff.1 hp).1
    simp [New, makeMap, allocate, deref, List.getElem?_append_left hlt, hp]

/-- C7: each of the six mutators, called on an exception `e` whose struct is `o`, returns
the same instance `e`, sets the named field of the struct to the argument and leaves the
eight other fields (errCode and message among them), every other exception and every
metadata map unchanged; and `New(c,m).WithDisplayMessage(d).WithStatusCode(s)` reads
`d` as display message and `s` as status code at the same time. -/
theorem mutators_overwrite_one_field_in_place {T : Type} (h : Heap T) (e : Exception)
    (o : exception T) (he : deref h e = Outcome.ok o) :
    (∀ v, OverwritesWith (WithErrType h e v) h e { o with errType := v }) ∧
    (∀ v, OverwritesWith (WithDisplayMessage h e v) h e { o with displayMessage := v }) ∧
    (∀ v, OverwritesWith (WithMetadata h e v) h e { o with metadata := v }) ∧
    (∀ v, OverwritesWith (WithReason h e v) h e { o with reason := v }) ∧
    (∀ v, OverwritesWith (WithBase h e v) h e { o with base := v }) ∧
    (∀ v, OverwritesWith (WithStatusCode h e v) h e { o with statusCode := v }) ∧
    (∀ (c : T) (m d : String) (s : Int), ∃ h1 h2,
      WithDisplayMessage (New h c m).2 (New h c m).1 d = Outcome.ok ((New h c m).1, h1) ∧
      WithStatusCode h1 (New h c m).1 s = Outcome.ok ((New h c m).1, h2) ∧
      DisplayMessage h2 (New h c m).1 = Outcome.ok d ∧
      StatusCode h2 (New h c m).1 = Outcome.ok s ∧
      ErrCode h2 (New h c m).1 = Outcome.ok c ∧
      Message h2 (New h c m).1 = Outcome.ok m) := by
  refine ⟨fun v => writeField_overwrites _ h e o he, fun v => writeField_overwrites _ h e o he,
    fun v => writeField_overwrites _ h e o he, fun v => writeField_overwrites _ h e o he,
    fun v => writeField_overwrites _ h e o he, fun v => writeField_overwrites _ h e o he, ?_⟩
  intro c m d s
  obtain ⟨_, hd, _, _, _⟩ := deref_New h c m
  obtain ⟨h1, hw1, hd1, _, _, _⟩ :=
    writeField_overwrites (fun o => { o with displayMessage := d }) _ _ _ hd
  obtain ⟨h2, hw2, hd2, _, _, _⟩ :=
    writeField_overwrites (fun o => { o with statusCode := s }) _ _ _ hd1
  refine ⟨h1, h2, hw1, hw2, ?_, ?_, ?_, ?_⟩ <;> simp [DisplayMessage, StatusCode, ErrCode, Message, readField, hd2]

/-- Witness for C7 on the exception `New("E1", "m1")` in an otherwise empty heap. -/
theorem mutators_overwrite_one_field_in_place_witness :
    deref (New (Heap.empty : Heap String) "E1" "m1").2 (some 0) = Outcome.ok
      { base := none, message := "m1", displayMessage := "", errType := "", errCode := "E1",
        stackTrace := [], reason := GoValue.nil, metadata := some 0, statusCode := 0 } ∧
    OverwritesWith (WithDisplayMessage (New (Heap.empty : Heap String) "E1" "m1").2 (some 0) "shown")
      (New (Heap.empty : Heap String) "E1" "m1").2 (some 0)
      { base := none, message := "m1", displayMessage := "shown", errType := "",
        errCode := "E1", stackTrace := [], reason := GoValue.nil, metadata := some 0,
        statusCode := 0 } :=
  ⟨by decide,
   (mutators_overwrite_one_field_in_place (New (Heap.empty : Heap String) "E1" "m1").2 (some 0)
      { base := none, message := "m1", displayMessage := "", errType := "", errCode := "E1",
        stackTrace := [], reason := GoValue.nil, metadata := some 0, statusCode := 0 }
      (by decide)).2.1 "shown"⟩

/-- C8, counterexample: on the exception `New("E1", "m1")`, alone in the heap at address 0,
`WithDisplayMessage("changed")` returns the receiver (address 0, no struct is allocated)
and the receiver, whose display message was empty, now reads "changed". -/
theorem with_returns_copy_counterexample :
    DisplayMessage (New (Heap.empty : Heap String) "E1" "m1").2 (some 0) = Outcome.ok "" ∧
    WithDisplayMessage (New (Heap.empty : Heap String) "E1" "m1").2 (some 0) "changed" =
      Outcome.ok (some 0,
        ⟨[{ base := none, message := "m1", displayMessage := "changed", errType := "",
            errCode := "E1", stackTrace := [], reason := GoValue.nil, metadata := some 0,
            statusCode := 0 }], [[]]⟩) ∧
    DisplayMessage
      (⟨[{ base := none, message := "m1", displayMessage := "changed", errType := "",
           errCode := "E1", stackTrace := [], reason := GoValue.nil, metadata := some 0,
           statusCode := 0 }], [[]]⟩ : Heap String) (some 0) = Outcome.ok "changed" := by
  decide

/-- C8, amended: each of the six mutators, called on an exception `e`, returns the
receiver `e` itself and allocates no struct, and afterwards the receiver reads the new
value through the accessor of the field. -/
theorem mutators_return_receiver_modified {T : Type} (h : Heap T) (e : Exception)
    (o : exception T) (he : deref h e = Outcome.ok o) :
    (∀ v, ∃ h1, WithErrType h e v = Outcome.ok (e, h1) ∧
      h1.objs.length = h.objs.length ∧ ErrType h1 e = Outcome.ok v) ∧
    (∀ v, ∃ h1, WithDisplayMessage h e v = Outcome.ok (e, h1) ∧
      h1.objs.length = h.objs.length ∧ DisplayMessage h1 e = Outcome.ok v) ∧
    (∀ v, ∃ h1, WithMetadata h e v = Outcome.ok (e, h1) ∧
      h1.objs.length = h.objs.length ∧ Metadata h1 e = Outcome.ok v) ∧
    (∀ v, ∃ h1, WithReason h e v = Outcome.ok (e, h1) ∧
      h1.objs.length = h.objs.length ∧ Reason h1 e = Outcome.ok v) ∧
    (∀ v, ∃ h1, WithBase h e v = Outcome.ok (e, h1) ∧
      h1.objs.length = h.objs.length ∧ Base h1 e = Outcome.ok v) ∧
    (∀ v, ∃ h1, WithStatusCode h e v = Outcome.ok (e, h1) ∧
      h1.objs.length = h.objs.length ∧ StatusCode h1 e = Outcome.ok v) := by
  refine ⟨?_, ?_, ?_, ?_, ?_, ?_⟩ <;> intro v
  · obtain ⟨h1, hw, hd, _, _, hl⟩ :=
      writeField_overwrites (fun o => { o with errType := v }) h e o he
    exact ⟨h1, hw, hl, by simp [ErrType, readField, hd]⟩
  · obtain ⟨h1, hw, hd, _, _, hl⟩ :=
      writeField_overwrites (fun o => { o with displayMessage := v }) h e o he
    exact ⟨h1, hw, hl, by simp [DisplayMessage, readField, hd]⟩
  · obtain ⟨h1, hw, hd, _, _, hl⟩ :=
      writeField_overwrites (fun o => { o with metadata := v }) h e o he
    exact ⟨h1, hw, hl, by simp [Metadata, readField, hd]⟩
  · obtain ⟨h1, hw, hd, _, _, hl⟩ :=
      writeField_overwrites (fun o => { o with reason := v }) h e o he
    exact ⟨h1, hw, hl, by simp [Reason, readField, hd]⟩
  · obtain ⟨h1, hw, hd, _, _, hl⟩ :=
      writeField_overwrites (fun o => { o with base := v }) h e o he
    exact ⟨h1, hw, hl, by simp [Base, readField, hd]⟩
  · obtain ⟨h1, hw, hd, _, _, hl⟩ :=
      writeField_overwrites (fun o => { o with statusCode := v }) h e o he
    exact ⟨h1, hw, hl, by simp [StatusCode, readField, hd]⟩

/-- Witness for the amended C8 on `New("E1", "m1")` and `WithStatusCode(404)`. -/
theorem mutators_return_receiver_modified_witness :
    deref (New (Heap.empty : Heap String) "E1" "m1").2 (some 0) = Outcome.ok
      { base := none, message := "m1", displayMessage := "", errType := "", errCode := "E1",
        stackTrace := [], reason := GoValue.nil, metadata := some 0, statusCode := 0 } ∧
    ∃ h1, WithStatusCode (New (Heap.empty : Heap String) "E1" "m1").2 (some 0) 404 =
        Outcome.ok (some 0, h1) ∧
      h1.objs.length = (New (Heap.empty : Heap String) "E1" "m1").2.objs.length ∧
      StatusCode h1 (some 0) = Outcome.ok 404 :=
  ⟨by decide,
   (mutators_return_receiver_modified (New (Heap.empty : Heap String) "E1" "m1").2 (some 0)
      { base := none, message := "m1", displayMessage := "", errType := "", errCode := "E1",
        stackTrace := [], reason := GoValue.nil, metadata := some 0, statusCode := 0 }
      (by decide)).2.2.2.2.2 404⟩

/-- C9: `New(c, msg)` always returns an exception, freshly allocated, with `ErrCode() == c`,
`Message() == msg`, empty display message and type, nil reason, nil base, status code 0,
empty stack trace and a non-nil metadata map that is empty; `NewWithBase(c, msg, b)` is
`New(c, msg).WithBase(b)` and `NewForAPI(c, msg, s)` is `New(c, msg).WithStatusCode(s)`,
and both return the exception built by `New`. -/
theorem constructor_defaults {T : Type} (h : Heap T) (c : T) (msg : String) :
    (New h c msg).1 = some h.objs.length ∧
    ErrCode (New h c msg).2 (New h c msg).1 = Outcome.ok c ∧
    Message (New h c msg).2 (New h c msg).1 = Outcome.ok msg ∧
    DisplayMessage (New h c msg).2 (New h c msg).1 = Outcome.ok "" ∧
    ErrType (New h c msg).2 (New h c msg).1 = Outcome.ok "" ∧
    Reason (New h c msg).2 (New h c msg).1 = Outcome.ok GoValue.nil ∧
    Base (New h c msg).2 (New h c msg).1 = Outcome.ok none ∧
    StatusCode (New h c msg).2 (New h c msg).1 = Outcome.ok 0 ∧
    StackTrace (New h c msg).2 (New h c msg).1 = Outcome.ok [] ∧
    (∃ r, Metadata (New h c msg).2 (New h c msg).1 = Outcome.ok (some r) ∧
      (New h c msg).2.maps[r]? = some []) ∧
    (∀ b, NewWithBase h c msg b = WithBase (New h c msg).2 (New h c msg).1 b ∧
      ∃ h2, NewWithBase h c msg b = Outcome.ok ((New h c msg).1, h2) ∧
        Base h2 (New h c msg).1 = Outcome.ok b) ∧
    (∀ s, NewForAPI h c msg s = WithStatusCode (New h c msg).2 (New h c msg).1 s ∧
      ∃ h2, NewForAPI h c msg s = Outcome.ok ((New h c msg).1, h2) ∧
        StatusCode h2 (New h c msg).1 = Outcome.ok s) := by
  obtain ⟨ha, hd, hm, _, _⟩ := deref_New h c msg
  refine ⟨ha, ?_, ?_, ?_, ?_, ?_, ?_, ?_, ?_, ?_, ?_, ?_⟩
  · simp [ErrCode, readField, hd]
  · simp [Message, readField, hd]
  · simp [DisplayMessage, readField, hd]
  · simp [ErrType, readField, hd]
  · simp [Reason, readField, hd]
  · simp [Base, readField, hd]
  · simp [StatusCode, readField, hd]
  · simp [StackTrace, readField, hd]
  · exact ⟨h.maps.length, by simp [Metadata, readField, hd], by simp [hm]⟩
  · intro b
    obtain ⟨h2, hw, hd2, _, _, _⟩ :=
      writeField_overwrites (fun o => { o with base := b }) _ _ _ hd
    exact ⟨rfl, h2, hw, by simp [Base, readField, hd2]⟩
  · intro s
    obtain ⟨h2, hw, hd2, _, _, _⟩ :=
      writeField_overwrites (fun o => { o with statusCode := s }) _ _ _ hd
    exact ⟨rfl, h2, hw, by simp [StatusCode, readField, hd2]⟩

theorem deref_lt {T : Type} (h : Heap T) (p : Nat) (o : exception T)
    (hp : deref h (some p) = Outcome.ok o) : p < h.objs.length := by
  obtain ⟨q, hq, hget⟩ := (deref_ok_iff h (some p) o).1 hp
  cases hq
  exact (List.getElem?_eq_some_iff.1 hget).1

theorem deref_append_old {T : Type} (h : Heap T) (o1 : exception T) (q : Exception)
    (o : exception T) (hq : deref h q = Outcome.ok o) :
    deref ({ h with objs := h.objs ++ [o1] } : Heap T) q = Outcome.ok o := by
  obtain ⟨p, rfl, hp⟩ := (deref_ok_iff h q o).1 hq
  have hlt : p < h.objs.length := (List.getElem?_eq_some_iff.1 hp).1
  simp [deref, List.getElem?_append_left hlt, hp]

theorem deref_append_new {T : Type} (h : Heap T) (o1 : exception T) :
    deref ({ h with objs := h.objs ++ [o1] } : Heap T) (some h.objs.length) = Outcome.ok o1 := by
  simp [deref]

/-- `Clone` on a live receiver allocates one struct equal to the receiver's. -/
theorem Clone_of_deref {T : Type} (h : Heap T) (e : Exception) (o : exception T)
    (he : deref h e = Outcome.ok o) :
    Clone h e = Outcome.ok (some h.objs.length, { h with objs := h.objs ++ [o] }) := by
  cases o
  simp [Clone, he, allocate]

/-- `Clone` returns only for a live receiver. -/
theorem deref_of_Clone {T : Type} (h : Heap T) (e r : Exception) (h1 : Heap T)
    (hc : Clone h e = Outcome.ok (r, h1)) :
    ∃ o, deref h e = Outcome.ok o := by
  cases hd : deref h e with
  | ok o => exact ⟨o, rfl⟩
  | panic c => simp [Clone, hd] at hc

/-- Every mutator is a field overwrite through the receiver pointer. -/
theorem Mutator.call_eq_writeField {T : Type} (μ : Mutator) :
    ∃ f : exception T → exception T, ∀ (h : Heap T) (e : Exception),
      μ.call h e = writeField f h e := by
  cases μ with
  | errType v => exact ⟨_, fun h e => rfl⟩
  | displayMessage v => exact ⟨_, fun h e => rfl⟩
  | metadata v => exact ⟨_, fun h e => rfl⟩
  | reason v => exact ⟨_, fun h e => rfl⟩
  | base v => exact ⟨_, fun h e => rfl⟩
  | statusCode v => exact ⟨_, fun h e => rfl⟩

/-- `Get` returns only for a code whose entry holds a live exception. -/
theorem Get_ok_entry {T : Type} [DecidableEq T] (m : Manager T) (h : Heap T) (c : T)
    (e : Exception) (h1 : Heap T) (hget : Get m h c = Outcome.ok (e, h1)) :
    ∃ p o, cacheIndex m c = some (some p) ∧ deref h (some p) = Outcome.ok o := by
  obtain ⟨o, ho⟩ := deref_of_Clone h _ e h1 hget
  obtain ⟨p, hp, hget2⟩ := (deref_ok_iff h _ o).1 ho
  refine ⟨p, o, ?_, ?_⟩
  · cases hci : cacheIndex m c with
    | none => simp [hci] at hp
    | some v =>
      simp [hci] at hp
      rw [hp]
  · exact (deref_ok_iff h (some p) o).2 ⟨p, rfl, hget2⟩

/-- What follows once `m.Get(c)` has returned `e`: the code `c` holds a template distinct
from `e` whose struct `e` copies, a mutator applied to `e` leaves the template as it was,
and a second `m.Get(c)` returns the same struct again. -/
theorem Get_then_mutate_then_Get {T : Type} [DecidableEq T] (m : Manager T) (h : Heap T) (c : T)
    (e : Exception) (h1 : Heap T) (hget : Get m h c = Outcome.ok (e, h1)) (μ : Mutator) :
    ∃ tmpl o, cacheIndex m c = some tmpl ∧ tmpl ≠ e ∧
      deref h tmpl = Outcome.ok o ∧ deref h1 e = Outcome.ok o ∧
      ∃ h2, μ.call h1 e = Outcome.ok (e, h2) ∧ deref h2 tmpl = Outcome.ok o ∧
        h2.maps = h.maps ∧
        ∃ e2 h3, Get m h2 c = Outcome.ok (e2, h3) ∧ deref h3 e2 = deref h1 e ∧
          DisplayMessage h3 e2 = DisplayMessage h1 e ∧ h3.maps = h.maps := by
  obtain ⟨p, o, hci, hp⟩ := Get_ok_entry m h c e h1 hget
  have hlt := deref_lt h p o hp
  have hclone := Clone_of_deref h (some p) o hp
  have hget1 : Get m h c = Outcome.ok (some h.objs.length, { h with objs := h.objs ++ [o] }) := by
    simp [Get, hci, hclone]
  rw [hget1] at hget
  injection hget with hpair
  injection hpair with he hh1
  subst he
  subst hh1
  have hne : (some p : Exception) ≠ some h.objs.length := by
    intro hcon
    injection hcon with hcon
    omega
  have hde : deref ({ h with objs := h.objs ++ [o] } : Heap T) (some h.objs.length)
      = Outcome.ok o := deref_append_new h o
  obtain ⟨f, hf⟩ := Mutator.call_eq_writeField (T := T) μ
  obtain ⟨h2, hw, hd2, hframe, hmaps, hlen⟩ := writeField_overwrites f _ _ _ hde
  have htmpl1 : deref ({ h with objs := h.objs ++ [o] } : Heap T) (some p) = Outcome.ok o :=
    deref_append_old h o (some p) o hp
  have htmpl2 : deref h2 (some p) = Outcome.ok o := by
    rw [hframe (some p) hne]
    exact htmpl1
  refine ⟨some p, o, hci, hne, hp, hde, h2, ?_, htmpl2, hmaps, ?_⟩
  · rw [hf]
    exact hw
  · have hclone2 := Clone_of_deref h2 (some p) o htmpl2
    refine ⟨some h2.objs.length, { h2 with objs := h2.objs ++ [o] }, ?_, ?_, ?_, ?_⟩
    · simp [Get, hci, hclone2]
    · rw [deref_append_new, hde]
    · simp only [DisplayMessage, readField]
      rw [deref_append_new, hde]
    · exact hmaps

/-- C1: for a code `c` registered with the template `tmpl` (whose struct is `o`),
`m.Get(c)` returns an exception `e` distinct from the template that carries a copy of
`o`; any `With*` mutator applied to `e` succeeds and leaves the template's struct and the
metadata maps as they were; and a subsequent `m.Get(c)` returns an exception whose struct
equals, field by field, what the first `Get` returned before the mutation (so its display
message is the one `e` had before the mutation). -/
theorem get_clone_on_read {T : Type} [DecidableEq T] (m : Manager T) (h : Heap T) (c : T)
    (tmpl : Exception) (o : exception T) (hreg : cacheIndex m c = some tmpl)
    (hlive : deref h tmpl = Outcome.ok o) :
    ∃ e h1, Get m h c = Outcome.ok (e, h1) ∧ e ≠ tmpl ∧ deref h1 e = Outcome.ok o ∧
      ∀ μ : Mutator, ∃ h2, μ.call h1 e = Outcome.ok (e, h2) ∧ deref h2 tmpl = Outcome.ok o ∧
        h2.maps = h.maps ∧
        ∃ e2 h3, Get m h2 c = Outcome.ok (e2, h3) ∧ deref h3 e2 = deref h1 e ∧
          DisplayMessage h3 e2 = DisplayMessage h1 e ∧ h3.maps = h.maps := by
  have hget : Get m h c = Outcome.ok (some h.objs.length, { h with objs := h.objs ++ [o] }) := by
    simp [Get, hreg, Clone_of_deref h tmpl o hlive]
  have hfirst := Get_then_mutate_then_Get m h c _ _ hget
  obtain ⟨t0, o0, hreg0, hne0, hlive0, hde0, _⟩ := hfirst (Mutator.statusCode 0)
  have ht : t0 = tmpl := by
    rw [hreg] at hreg0
    injection hreg0 with hreg0
    exact hreg0.symm
  subst ht
  have ho : o0 = o := by
    rw [hlive] at hlive0
    injection hlive0 with hlive0
    exact hlive0.symm
  subst ho
  refine ⟨_, _, hget, fun hcon => hne0 hcon.symm, hde0, ?_⟩
  intro μ
  obtain ⟨t1, o1, hreg1, _, hlive1, _, h2, hcall, htmpl, hmaps, hrest⟩ := hfirst μ
  have ht1 : t1 = t0 := by
    rw [hreg] at hreg1
    injection hreg1 with hreg1
    exact hreg1.symm
  subst ht1
  have ho1 : o1 = o0 := by
    rw [hlive] at hlive1
    injection hlive1 with hlive1
    exact hlive1.symm
  subst ho1
  exact ⟨h2, hcall, htmpl, hmaps, hrest⟩

/-- Witness for C1: the registry holds `New("E1", "m1")` under "E1". -/
theorem get_clone_on_read_witness :
    cacheIndex sampleManager "E1" = some (some 0) ∧
    deref sampleHeap (some 0) = Outcome.ok sampleStruct ∧
    ∃ e h1, Get sampleManager sampleHeap "E1" = Outcome.ok (e, h1) ∧ e ≠ some 0 ∧
      deref h1 e = Outcome.ok sampleStruct ∧
      ∀ μ : Mutator, ∃ h2, μ.call h1 e = Outcome.ok (e, h2) ∧
        deref h2 (some 0) = Outcome.ok sampleStruct ∧ h2.maps = sampleHeap.maps ∧
        ∃ e2 h3, Get sampleManager h2 "E1" = Outcome.ok (e2, h3) ∧
          deref h3 e2 = deref h1 e ∧
          DisplayMessage h3 e2 = DisplayMessage h1 e ∧ h3.maps = sampleHeap.maps :=
  ⟨by decide, by decide,
   get_clone_on_read sampleManager sampleHeap "E1" (some 0) sampleStruct (by decide)
     (by decide)⟩

/-- C3, on the failing input: `NewManagerStr().Get("E404")` reads the nil interface from
the map and the call of `Clone` on it panics with a nil dereference; no exception is
returned. -/
theorem get_absent_code_panics :
    Contains (NewManager : Manager String) "E404" = false ∧
    Get (NewManager : Manager String) Heap.empty "E404" =
      Outcome.panic Panic.nilDereference := by
  decide

/-- `Get` panics on every code that is not registered, whatever the Manager and heap. -/
theorem Get_of_not_Contains {T : Type} [DecidableEq T] (m : Manager T) (h : Heap T) (c : T)
    (hc : Contains m c = false) : Get m h c = Outcome.panic Panic.nilDereference := by
  cases hci : cacheIndex m c with
  | none => simp [Get, hci, Clone, deref]
  | some v => simp [Contains, hci] at hc

theorem ErrCode_of_deref {T : Type} (h : Heap T) (e : Exception) (o : exception T)
    (he : deref h e = Outcome.ok o) : ErrCode h e = Outcome.ok o.errCode := by
  simp [ErrCode, readField, he]

theorem deref_of_ErrCode {T : Type} (h : Heap T) (e : Exception) (k : T)
    (he : ErrCode h e = Outcome.ok k) : ∃ o, deref h e = Outcome.ok o ∧ o.errCode = k := by
  cases hd : deref h e with
  | ok o =>
    refine ⟨o, rfl, ?_⟩
    simp [ErrCode, readField, hd] at he
    exact he
  | panic c => simp [ErrCode, readField, hd] at he

/-- C4: for an exception `e` with code `k`, `SafeAdd(e)` returns a non-nil error exactly
when `k` is already a key of the registry; the error is the "already exists" error for
`k` and the registry is the one before the call, so every `Get` reads as before; it
returns nil exactly when `k` is not a key and `Add(e)` returns, with the registry `Add(e)`
produces; and on a registry whose map is allocated and does not hold `k` it does return
nil. -/
theorem safeAdd_conflict_detection {T : Type} [DecidableEq T] [ErrorCode T]
    (FormatFloat : Nat → String) (m : Manager T) (h : Heap T) (e : Exception)
    (o : exception T) (he : deref h e = Outcome.ok o) :
    ((∃ err m1, SafeAdd FormatFloat m h e = Outcome.ok (some err, m1)) ↔
      Contains m o.errCode = true) ∧
    (Contains m o.errCode = true →
      SafeAdd FormatFloat m h e = Outcome.ok (some (alreadyExists FormatFloat o.errCode), m)) ∧
    (∀ err m1, SafeAdd FormatFloat m h e = Outcome.ok (some err, m1) →
      m1 = m ∧ ∀ c, Get m1 h c = Get m h c) ∧
    (∀ m1, SafeAdd FormatFloat m h e = Outcome.ok (none, m1) ↔
      (Contains m o.errCode = false ∧ Add m h e = Outcome.ok m1)) ∧
    (Contains m o.errCode = false → ∀ mp, m.cache = some mp →
      Add m h e = Outcome.ok ⟨some (mapAssign mp o.errCode e)⟩ ∧
      SafeAdd FormatFloat m h e = Outcome.ok (none, ⟨some (mapAssign mp o.errCode e)⟩)) := by
  have hk := ErrCode_of_deref h e o he
  cases hc : (cacheIndex m o.errCode).isSome with
  | true =>
    have hs : SafeAdd FormatFloat m h e
        = Outcome.ok (some (alreadyExists FormatFloat o.errCode), m) := by
      simp [SafeAdd, hk, hc]
    refine ⟨?_, ?_, ?_, ?_, ?_⟩
    · simp [hs, Contains, hc]
    · intro _
      exact hs
    · intro err m1 h1
      rw [hs] at h1
      injection h1 with h1
      injection h1 with _ h1
      subst h1
      exact ⟨rfl, fun c => rfl⟩
    · intro m1
      simp [hs, Contains, hc]
    · intro hcon
      simp [Contains, hc] at hcon
  | false =>
    have hs : SafeAdd FormatFloat m h e = (match Add m h e with
        | Outcome.panic c => Outcome.panic c
        | Outcome.ok m1 => Outcome.ok (none, m1)) := by
      simp [SafeAdd, hk, hc]
    refine ⟨?_, ?_, ?_, ?_, ?_⟩
    · rw [hs]
      cases Add m h e <;> simp [Contains, hc]
    · intro hcon
      simp [Contains, hc] at hcon
    · intro err m1 h1
      rw [hs] at h1
      cases hadd : Add m h e <;> simp [hadd] at h1
    · intro m1
      rw [hs]
      cases hadd : Add m h e <;> simp [Contains, hc]
    · intro _ mp hmp
      have hadd : Add m h e = Outcome.ok ⟨some (mapAssign mp o.errCode e)⟩ := by
        simp [Add, cacheStore, hk, hmp]
      exact ⟨hadd, by rw [hs, hadd]⟩

/-- Witness for C4: `SafeAdd` of the exception `New("E1", "m1")` on the empty registry. -/
theorem safeAdd_conflict_detection_witness :
    deref sampleHeap (some 0) = Outcome.ok sampleStruct ∧
    (Contains (NewManager : Manager String) sampleStruct.errCode = false → ∀ mp,
      (NewManager : Manager String).cache = some mp →
      Add NewManager sampleHeap (some 0) =
        Outcome.ok ⟨some (mapAssign mp sampleStruct.errCode (some 0))⟩ ∧
      SafeAdd (fun _ => "") NewManager sampleHeap (some 0) =
        Outcome.ok (none, ⟨some (mapAssign mp sampleStruct.errCode (some 0))⟩)) :=
  ⟨by decide,
   (safeAdd_conflict_detection (fun _ => "") (NewManager : Manager String) sampleHeap (some 0)
      sampleStruct (by decide)).2.2.2.2⟩

theorem firstCollision_none {T : Type} [DecidableEq T] (m : Manager T) (h : Heap T)
    (es : List Exception) (hlive : ∀ e ∈ es, ∃ o, deref h e = Outcome.ok o)
    (hfree : ∀ e ∈ es, ∀ o, deref h e = Outcome.ok o → Contains m o.errCode = false) :
    firstCollision m h es = Outcome.ok none := by
  induction es with
  | nil => rfl
  | cons e es ih =>
    obtain ⟨o, ho⟩ := hlive e (List.mem_cons_self e es)
    have hc := hfree e (List.mem_cons_self e es) o ho
    have hk := ErrCode_of_deref h e o ho
    have ih1 := ih (fun x hx => hlive x (List.mem_cons_of_mem e hx))
      (fun x hx => hfree x (List.mem_cons_of_mem e hx))
    simp only [Contains] at hc
    simp [firstCollision, hk, hc, ih1]

theorem firstCollision_some {T : Type} [DecidableEq T] (m : Manager T) (h : Heap T)
    (es : List Exception) (hlive : ∀ e ∈ es, ∃ o, deref h e = Outcome.ok o)
    (hhit : ∃ e ∈ es, ∃ o, deref h e = Outcome.ok o ∧ Contains m o.errCode = true) :
    ∃ k, firstCollision m h es = Outcome.ok (some k) ∧ Contains m k = true ∧
      ∃ e ∈ es, ErrCode h e = Outcome.ok k := by
  induction es with
  | nil =>
    obtain ⟨e, he, _⟩ := hhit
    simp at he
  | cons e es ih =>
    obtain ⟨o, ho⟩ := hlive e (List.mem_cons_self e es)
    have hk := ErrCode_of_deref h e o ho
    cases hc : (cacheIndex m o.errCode).isSome with
    | true =>
      exact ⟨o.errCode, by simp [firstCollision, hk, hc], by simp [Contains, hc],
        e, List.mem_cons_self e es, hk⟩
    | false =>
      have hrest : ∃ x ∈ es, ∃ ox, deref h x = Outcome.ok ox ∧ Contains m ox.errCode = true := by
        obtain ⟨x, hx, ox, hox, hcx⟩ := hhit
        rcases List.mem_cons.1 hx with hxe | hxs
        · subst hxe
          rw [ho] at hox
          injection hox with hox
          subst hox
          simp [Contains, hc] at hcx
        · exact ⟨x, hxs, ox, hox, hcx⟩
      obtain ⟨k, hf, hck, x, hx, hxk⟩ :=
        ih (fun x hx => hlive x (List.mem_cons_of_mem e hx)) hrest
      exact ⟨k, by simp [firstCollision, hk, hc, hf], hck, x, List.mem_cons_of_mem e hx, hxk⟩

theorem AddAll_returns {T : Type} [DecidableEq T] (h : Heap T) (es : List Exception)
    (hlive : ∀ e ∈ es, ∃ o, deref h e = Outcome.ok o) :
    ∀ (m : Manager T) (mp : GoMap T Exception), m.cache = some mp →
      ∃ mp1, AddAll m h es = Outcome.ok ⟨some mp1⟩ := by
  induction es with
  | nil =>
    intro m mp hmp
    refine ⟨mp, ?_⟩
    cases m
    simp at hmp
    simp [AddAll, hmp]
  | cons e es ih =>
    intro m mp hmp
    obtain ⟨o, ho⟩ := hlive e (List.mem_cons_self e es)
    have hk := ErrCode_of_deref h e o ho
    obtain ⟨mp1, h1⟩ := ih (fun x hx => hlive x (List.mem_cons_of_mem e hx))
      ⟨some (mapAssign mp o.errCode e)⟩ _ rfl
    exact ⟨mp1, by simp [AddAll, cacheStore, hk, hmp, h1]⟩

/-- C5: for a list `es` of exceptions, if some exception of `es` has a code already
registered, `SafeAddAll(es...)` returns the "already exists" error of a registered code of
`es` and the registry is exactly the one before the call; if no code of `es` is
registered, `SafeAddAll(es...)` does what `AddAll(es...)` does and returns nil with the
registry `AddAll` produces, which on a registry whose map is allocated it always does. -/
theorem safeAddAll_batch_atomicity {T : Type} [DecidableEq T] [ErrorCode T]
    (FormatFloat : Nat → String) (m : Manager T) (h : Heap T) (es : List Exception)
    (hlive : ∀ e ∈ es, ∃ o, deref h e = Outcome.ok o) :
    ((∃ e ∈ es, ∃ o, deref h e = Outcome.ok o ∧ Contains m o.errCode = true) →
      ∃ k, SafeAddAll FormatFloat m h es = Outcome.ok (some (alreadyExists FormatFloat k), m) ∧
        Contains m k = true ∧ ∃ e ∈ es, ErrCode h e = Outcome.ok k) ∧
    ((∀ e ∈ es, ∀ o, deref h e = Outcome.ok o → Contains m o.errCode = false) →
      (∀ m1, AddAll m h es = Outcome.ok m1 →
        SafeAddAll FormatFloat m h es = Outcome.ok (none, m1)) ∧
      (∀ mp, m.cache = some mp → ∃ m1, AddAll m h es = Outcome.ok m1 ∧
        SafeAddAll FormatFloat m h es = Outcome.ok (none, m1))) := by
  constructor
  · intro hhit
    obtain ⟨k, hf, hck, hmem⟩ := firstCollision_some m h es hlive hhit
    exact ⟨k, by simp [SafeAddAll, hf], hck, hmem⟩
  · intro hfree
    have hf := firstCollision_none m h es hlive hfree
    constructor
    · intro m1 hadd
      simp [SafeAddAll, hf, hadd]
    · intro mp hmp
      obtain ⟨mp1, hadd⟩ := AddAll_returns h es hlive m mp hmp
      exact ⟨_, hadd, by simp [SafeAddAll, hf, hadd]⟩


/-- Witness for C5: the registry already holds code "E1" and the batch is the one
exception `New("E1", "m1")`. -/
theorem safeAddAll_batch_atomicity_witness :
    (∀ e ∈ [(some 0 : Exception)], ∃ o, deref sampleHeap e = Outcome.ok o) ∧
    ((∃ e ∈ [(some 0 : Exception)], ∃ o, deref sampleHeap e = Outcome.ok o ∧
        Contains sampleManager o.errCode = true) →
      ∃ k, SafeAddAll (fun _ => "") sampleManager sampleHeap [some 0] =
          Outcome.ok (some (alreadyExists (fun _ => "") k), sampleManager) ∧
        Contains sampleManager k = true ∧
        ∃ e ∈ [(some 0 : Exception)], ErrCode sampleHeap e = Outcome.ok k) :=
  ⟨fun e he => ⟨sampleStruct, by
      rw [List.mem_singleton.1 he]
      decide⟩,
   (safeAddAll_batch_atomicity (fun _ => "") sampleManager sampleHeap [some 0]
      (fun e he => ⟨sampleStruct, by
        rw [List.mem_singleton.1 he]
        decide⟩)).1⟩

theorem mapIndex_mapAssign_self {K V : Type} [DecidableEq K] (mp : GoMap K V) (k : K) (v : V) :
    mapIndex (mapAssign mp k v) k = some v := by
  induction mp with
  | nil => simp [mapAssign, mapIndex]
  | cons kv rest ih =>
    obtain ⟨k1, v1⟩ := kv
    by_cases hk : k1 = k
    · simp [mapAssign, mapIndex, hk]
    · simp [mapAssign, mapIndex, hk, ih]

theorem mapIndex_mapAssign_other {K V : Type} [DecidableEq K] (mp : GoMap K V) (k c : K)
    (v : V) (hc : c ≠ k) : mapIndex (mapAssign mp k v) c = mapIndex mp c := by
  induction mp with
  | nil =>
    have hkc : ¬ k = c := fun hkc => hc hkc.symm
    simp [mapAssign, mapIndex, hkc]
  | cons kv rest ih =>
    obtain ⟨k1, v1⟩ := kv
    by_cases hk : k1 = k
    · have hkc : ¬ k = c := fun hkc => hc hkc.symm
      have hk1c : ¬ k1 = c := fun h1 => hc (h1.symm.trans hk)
      simp [mapAssign, mapIndex, hk, hkc]
    · simp [mapAssign, mapIndex, hk, ih]

theorem cacheStore_ok {T : Type} [DecidableEq T] (m m1 : Manager T) (h : Heap T)
    (e : Exception) (hs : cacheStore m h e = Outcome.ok m1) :
    ∃ mp o, m.cache = some mp ∧ deref h e = Outcome.ok o ∧
      m1 = ⟨some (mapAssign mp o.errCode e)⟩ := by
  cases hk : ErrCode h e with
  | panic c => simp [cacheStore, hk] at hs
  | ok k =>
    obtain ⟨o, ho, hok⟩ := deref_of_ErrCode h e k hk
    cases hmp : m.cache with
    | none => simp [cacheStore, hk, hmp] at hs
    | some mp =>
      simp [cacheStore, hk, hmp] at hs
      exact ⟨mp, o, rfl, ho, by rw [hok, hs]⟩

theorem AddAll_ok_cache {T : Type} [DecidableEq T] (h : Heap T) (es : List Exception) :
    ∀ (m m1 : Manager T), AddAll m h es = Outcome.ok m1 → m.cache ≠ none →
      m1.cache ≠ none := by
  induction es with
  | nil =>
    intro m m1 hs hne
    simp [AddAll] at hs
    rw [← hs]
    exact hne
  | cons e es ih =>
    intro m m1 hs _
    cases hc : cacheStore m h e with
    | panic c => simp [AddAll, hc] at hs
    | ok m2 =>
      simp [AddAll, hc] at hs
      obtain ⟨mp, o, _, _, hm2⟩ := cacheStore_ok m m2 h e hc
      exact ih m2 m1 hs (by rw [hm2]; simp)

/-- A call other than `Set` leaves the map of the Manager allocated. -/
theorem exec_cache_allocated {T : Type} [DecidableEq T] [ErrorCode T]
    (FormatFloat : Nat → String) (w w1 : World T) (c : Call T)
    (hx : exec FormatFloat w c = Outcome.ok w1) (hset : c.isSet = false)
    (hne : w.mgr.cache ≠ none) : w1.mgr.cache ≠ none := by
  cases c with
  | new k msg => simp [exec] at hx; rw [← hx]; exact hne
  | newWithBase k msg b =>
    cases hr : NewWithBase w.heap k msg b with
    | panic p => simp [exec, World.keepHeap, hr] at hx
    | ok r => simp [exec, World.keepHeap, hr] at hx; rw [← hx]; exact hne
  | newForAPI k msg s =>
    cases hr : NewForAPI w.heap k msg s with
    | panic p => simp [exec, World.keepHeap, hr] at hx
    | ok r => simp [exec, World.keepHeap, hr] at hx; rw [← hx]; exact hne
  | mutate e μ =>
    cases hr : μ.call w.heap e with
    | panic p => simp [exec, World.keepHeap, hr] at hx
    | ok r => simp [exec, World.keepHeap, hr] at hx; rw [← hx]; exact hne
  | clone e =>
    cases hr : Clone w.heap e with
    | panic p => simp [exec, World.keepHeap, hr] at hx
    | ok r => simp [exec, World.keepHeap, hr] at hx; rw [← hx]; exact hne
  | makeMap => simp [exec] at hx; rw [← hx]; exact hne
  | storeMapEntry md k v =>
    cases hr : storeMapEntry w.heap md k v with
    | panic p => simp [exec, hr] at hx
    | ok r => simp [exec, hr] at hx; rw [← hx]; exact hne
  | set x => simp [Call.isSet] at hset
  | add e =>
    cases hr : Add w.mgr w.heap e with
    | panic p => simp [exec, World.keepMgr, hr] at hx
    | ok r =>
      simp [exec, World.keepMgr, hr] at hx
      obtain ⟨mp, o, _, _, hm⟩ := cacheStore_ok w.mgr r w.heap e hr
      rw [← hx, hm]; simp
  | safeAdd e =>
    cases hr : SafeAdd FormatFloat w.mgr w.heap e with
    | panic p => simp [exec, hr] at hx
    | ok r =>
      obtain ⟨err, m1⟩ := r
      simp [exec, hr] at hx
      rw [← hx]
      simp only [SafeAdd] at hr
      cases hk : ErrCode w.heap e with
      | panic p => simp [hk] at hr
      | ok k =>
        simp only [hk] at hr
        split at hr
        · injection hr with hr
          injection hr with _ hr
          rw [← hr]; exact hne
        · cases ha : Add w.mgr w.heap e with
          | panic p => simp [ha] at hr
          | ok m2 =>
            simp [ha] at hr
            obtain ⟨mp, o, _, _, hm⟩ := cacheStore_ok w.mgr m2 w.heap e ha
            rw [← hr.2, hm]; simp
  | addAll es =>
    cases hr : AddAll w.mgr w.heap es with
    | panic p => simp [exec, World.keepMgr, hr] at hx
    | ok r =>
      simp [exec, World.keepMgr, hr] at hx
      rw [← hx]
      exact AddAll_ok_cache w.heap es w.mgr r hr hne
  | safeAddAll es =>
    cases hr : SafeAddAll FormatFloat w.mgr w.heap es with
    | panic p => simp [exec, hr] at hx
    | ok r =>
      obtain ⟨err, m1⟩ := r
      simp [exec, hr] at hx
      rw [← hx]
      simp only [SafeAddAll] at hr
      cases hf : firstCollision w.mgr w.heap es with
      | panic p => simp [hf] at hr
      | ok fc =>
        cases fc with
        | some k =>
          simp [hf] at hr
          rw [← hr.2]; exact hne
        | none =>
          simp only [hf] at hr
          cases ha : AddAll w.mgr w.heap es with
          | panic p => simp [ha] at hr
          | ok m2 =>
            simp [ha] at hr
            rw [← hr.2]
            exact AddAll_ok_cache w.heap es w.mgr m2 ha hne
  | get k =>
    cases hr : Get w.mgr w.heap k with
    | panic p => simp [exec, World.keepHeap, hr] at hx
    | ok r => simp [exec, World.keepHeap, hr] at hx; rw [← hx]; exact hne
  | getAll =>
    cases hr : GetAll w.mgr w.heap with
    | panic p => simp [exec, World.keepHeap, hr] at hx
    | ok r => simp [exec, World.keepHeap, hr] at hx; rw [← hx]; exact hne
  | remove k =>
    simp [exec] at hx
    rw [← hx]
    cases hmp : w.mgr.cache with
    | none => exact absurd hmp hne
    | some mp => simp [Remove, hmp]
  | clear => simp [exec] at hx; rw [← hx]; simp [Clear]

theorem run_cache_allocated {T : Type} [DecidableEq T] [ErrorCode T]
    (FormatFloat : Nat → String) (calls : List (Call T)) :
    ∀ (w w1 : World T), run FormatFloat w calls = Outcome.ok w1 →
      (∀ c ∈ calls, c.isSet = false) → w.mgr.cache ≠ none → w1.mgr.cache ≠ none := by
  induction calls with
  | nil =>
    intro w w1 hr _ hne
    simp [run] at hr
    rw [← hr]; exact hne
  | cons c cs ih =>
    intro w w1 hr hset hne
    cases hx : exec FormatFloat w c with
    | panic p => simp [run, hx] at hr
    | ok w2 =>
      simp [run, hx] at hr
      exact ih w2 w1 hr (fun d hd => hset d (List.mem_cons_of_mem c hd))
        (exec_cache_allocated FormatFloat w w2 c hx (hset c (List.mem_cons_self c cs)) hne)

/-- C2: on a Manager created by `NewManager` and brought to its state by a client program
that never calls `Set`, `Add(e)` returns for every exception `e`; afterwards
`Get(e.ErrCode())` returns a fresh exception whose struct equals `e`'s in every field
(code, message, display message, type, metadata, stack trace, reason, base, status
code), `e` itself is unchanged, and `Get` on any other code behaves exactly as before the
`Add`. -/
theorem add_get_round_trip {T : Type} [DecidableEq T] [ErrorCode T]
    (FormatFloat : Nat → String) (calls : List (Call T)) (w : World T)
    (hrun : run FormatFloat World.start calls = Outcome.ok w)
    (hset : ∀ c ∈ calls, c.isSet = false)
    (e : Exception) (o : exception T) (he : deref w.heap e = Outcome.ok o) :
    ∃ m1, Add w.mgr w.heap e = Outcome.ok m1 ∧
      (∃ g h2, Get m1 w.heap o.errCode = Outcome.ok (g, h2) ∧ g ≠ e ∧
        deref h2 g = Outcome.ok o ∧ deref h2 e = Outcome.ok o ∧
        ErrCode h2 g = Outcome.ok o.errCode ∧ Message h2 g = Outcome.ok o.message) ∧
      (∀ c, c ≠ o.errCode →
        Contains m1 c = Contains w.mgr c ∧ Get m1 w.heap c = Get w.mgr w.heap c) := by
  have hne : w.mgr.cache ≠ none :=
    run_cache_allocated FormatFloat calls World.start w hrun hset (by simp [World.start, NewManager])
  cases hmp : w.mgr.cache with
  | none => exact absurd hmp hne
  | some mp =>
    have hk := ErrCode_of_deref w.heap e o he
    refine ⟨⟨some (mapAssign mp o.errCode e)⟩, by simp [Add, cacheStore, hk, hmp], ?_, ?_⟩
    · obtain ⟨p, hep, hp⟩ := (deref_ok_iff w.heap e o).1 he
      have hlt : p < w.heap.objs.length := (List.getElem?_eq_some_iff.1 hp).1
      refine ⟨some w.heap.objs.length, { w.heap with objs := w.heap.objs ++ [o] }, ?_, ?_,
        deref_append_new w.heap o, deref_append_old w.heap o e o he, ?_, ?_⟩
      · simp [Get, cacheIndex, mapIndex_mapAssign_self, Clone_of_deref w.heap e o he]
      · rw [hep]
        intro hcon
        injection hcon with hcon
        omega
      · simp [ErrCode, readField, deref_append_new]
      · simp [Message, readField, deref_append_new]
    · intro c hc
      have hi : cacheIndex (⟨some (mapAssign mp o.errCode e)⟩ : Manager T) c
          = cacheIndex w.mgr c := by
        simp [cacheIndex, hmp, mapIndex_mapAssign_other mp o.errCode c e hc]
      simp [Contains, Get, hi]

/-- Witness for C2: the program `New("E1", "m1")`, `New("E2", "m2")`, `Add` of the first,
and then `Add` of the second exception. -/
theorem add_get_round_trip_witness :
    run (fun _ => "") (World.start : World String)
        [Call.new "E1" "m1", Call.new "E2" "m2", Call.add (some 0)] =
      Outcome.ok ⟨(New sampleHeap "E2" "m2").2, sampleManager⟩ ∧
    (∀ c ∈ [Call.new "E1" "m1", Call.new "E2" "m2", Call.add (some 0)],
      Call.isSet (T := String) c = false) ∧
    deref (New sampleHeap "E2" "m2").2 (some 1) = Outcome.ok
      { base := none, message := "m2", displayMessage := "", errType := "", errCode := "E2",
        stackTrace := [], reason := GoValue.nil, metadata := some 1, statusCode := 0 } ∧
    ∃ m1, Add sampleManager (New sampleHeap "E2" "m2").2 (some 1) = Outcome.ok m1 ∧
      (∃ g h2, Get m1 (New sampleHeap "E2" "m2").2 "E2" = Outcome.ok (g, h2) ∧ g ≠ some 1 ∧
        deref h2 g = Outcome.ok
          { base := none, message := "m2", displayMessage := "", errType := "",
            errCode := "E2", stackTrace := [], reason := GoValue.nil, metadata := some 1,
            statusCode := 0 } ∧
        deref h2 (some 1) = Outcome.ok
          { base := none, message := "m2", displayMessage := "", errType := "",
            errCode := "E2", stackTrace := [], reason := GoValue.nil, metadata := some 1,
            statusCode := 0 } ∧
        ErrCode h2 g = Outcome.ok "E2" ∧ Message h2 g = Outcome.ok "m2") ∧
      (∀ c, c ≠ "E2" →
        Contains m1 c = Contains sampleManager c ∧
        Get m1 (New sampleHeap "E2" "m2").2 c = Get sampleManager (New sampleHeap "E2" "m2").2 c) :=
  ⟨by decide, by decide, by decide,
   add_get_round_trip (fun _ => "")
     [Call.new "E1" "m1", Call.new "E2" "m2", Call.add (some 0)]
     ⟨(New sampleHeap "E2" "m2").2, sampleManager⟩ (by decide) (by decide) (some 1)
     { base := none, message := "m2", displayMessage := "", errType := "", errCode := "E2",
       stackTrace := [], reason := GoValue.nil, metadata := some 1, statusCode := 0 }
     (by decide)⟩

theorem CodesKept.refl {T : Type} (h : Heap T) : CodesKept h h := fun _ _ hq => hq

theorem CodesKept.trans {T : Type} {h h1 h2 : Heap T} (h01 : CodesKept h h1)
    (h12 : CodesKept h1 h2) : CodesKept h h2 := fun q k hq => h12 q k (h01 q k hq)

theorem CodesKept_of_objs {T : Type} (h h1 : Heap T) (hobjs : h1.objs = h.objs) :
    CodesKept h h1 := by
  intro q k hq
  cases q with
  | none => simp [ErrCode, readField, deref] at hq
  | some p =>
    simp only [ErrCode, readField, deref, hobjs] at hq ⊢
    exact hq

theorem append_props {T : Type} (h : Heap T) (o1 : exception T) :
    CodesKept h { h with objs := h.objs ++ [o1] } ∧
    (o1.metadata ≠ none → MetadataAllocated h →
      MetadataAllocated { h with objs := h.objs ++ [o1] }) := by
  constructor
  · intro q k hq
    obtain ⟨o, ho, hok⟩ := deref_of_ErrCode h q k hq
    rw [← hok]
    exact ErrCode_of_deref _ q o (deref_append_old h o1 q o ho)
  · intro h1 hall o ho
    simp only [List.mem_append, List.mem_singleton] at ho
    rcases ho with ho | ho
    · exact hall o ho
    · rw [ho]; exact h1

theorem writeField_props {T : Type} (f : exception T → exception T) (h h1 : Heap T)
    (e r : Exception) (hw : writeField f h e = Outcome.ok (r, h1))
    (hf : ∀ o, (f o).errCode = o.errCode) :
    CodesKept h h1 ∧
    ((∀ o, o.metadata ≠ none → (f o).metadata ≠ none) → MetadataAllocated h →
      MetadataAllocated h1) := by
  cases e with
  | none => simp [writeField] at hw
  | some p =>
    cases hp : h.objs[p]? with
    | none => simp [writeField, hp] at hw
    | some o =>
      simp [writeField, hp] at hw
      obtain ⟨_, hh1⟩ := hw
      subst hh1
      constructor
      · intro q k hq
        by_cases hqp : q = some p
        · subst hqp
          obtain ⟨o2, ho2, hok⟩ := deref_of_ErrCode h (some p) k hq
          have ho2' : o2 = o := by
            obtain ⟨p2, hp2, hg⟩ := (deref_ok_iff h (some p) o2).1 ho2
            injection hp2 with hp2
            subst hp2
            rw [hp] at hg
            injection hg with hg
            exact hg.symm
          subst ho2'
          rw [ErrCode_of_deref _ (some p) (f o2) (deref_set_self h p o2 (f o2) hp), hf, hok]
        · simp only [ErrCode, readField] at hq ⊢
          rw [deref_set_other h p (f o) q hqp]
          exact hq
      · intro hmd hall o2 ho2
        rcases List.mem_or_eq_of_mem_set ho2 with hmem | heq
        · exact hall o2 hmem
        · rw [heq]
          exact hmd o (hall o (List.getElem?_mem hp))

theorem Clone_props {T : Type} (h h1 : Heap T) (e r : Exception)
    (hc : Clone h e = Outcome.ok (r, h1)) :
    CodesKept h h1 ∧ (MetadataAllocated h → MetadataAllocated h1) := by
  obtain ⟨o, ho⟩ := deref_of_Clone h e r h1 hc
  rw [Clone_of_deref h e o ho] at hc
  injection hc with hc
  injection hc with _ hh1
  subst hh1
  obtain ⟨hk, hm⟩ := append_props h o
  refine ⟨hk, fun hall => hm ?_ hall⟩
  obtain ⟨p, _, hp⟩ := (deref_ok_iff h e o).1 ho
  exact hall o (List.getElem?_mem hp)

theorem cloneAll_props {T : Type} (es : List Exception) :
    ∀ (h h1 : Heap T) (acc r : List Exception),
      cloneAll h es acc = Outcome.ok (r, h1) →
      CodesKept h h1 ∧ (MetadataAllocated h → MetadataAllocated h1) := by
  induction es with
  | nil =>
    intro h h1 acc r hc
    simp [cloneAll] at hc
    rw [← hc.2]
    exact ⟨CodesKept.refl h, fun hall => hall⟩
  | cons e es ih =>
    intro h h1 acc r hc
    cases hcl : Clone h e with
    | panic p => simp [cloneAll, hcl] at hc
    | ok res =>
      obtain ⟨e1, h2⟩ := res
      simp [cloneAll, hcl] at hc
      obtain ⟨hk1, hm1⟩ := Clone_props h h2 e e1 hcl
      obtain ⟨hk2, hm2⟩ := ih h2 h1 _ r hc
      exact ⟨hk1.trans hk2, fun hall => hm2 (hm1 hall)⟩

theorem New_props {T : Type} (h : Heap T) (c : T) (msg : String) :
    CodesKept h (New h c msg).2 ∧ (MetadataAllocated h → MetadataAllocated (New h c msg).2) := by
  constructor
  · intro q k hq
    obtain ⟨o, ho, hok⟩ := deref_of_ErrCode h q k hq
    rw [← hok]
    exact ErrCode_of_deref _ q o ((deref_New h c msg).2.2.2.2 q o ho)
  · intro hall o ho
    simp only [New, makeMap, allocate, List.mem_append, List.mem_singleton] at ho
    rcases ho with ho | ho
    · exact hall o ho
    · rw [ho]; simp

/-- Every mutator overwrites a field other than the error code; only `WithMetadata`
touches the metadata field. -/
theorem Mutator.call_frame {T : Type} (μ : Mutator) :
    ∃ f : exception T → exception T,
      (∀ (h : Heap T) (e : Exception), μ.call h e = writeField f h e) ∧
      (∀ o, (f o).errCode = o.errCode) ∧
      (∀ o, (f o).metadata = o.metadata ∨ μ = Mutator.metadata (f o).metadata) := by
  cases μ with
  | errType v => exact ⟨_, fun h e => rfl, fun o => rfl, fun o => Or.inl rfl⟩
  | displayMessage v => exact ⟨_, fun h e => rfl, fun o => rfl, fun o => Or.inl rfl⟩
  | metadata v => exact ⟨_, fun h e => rfl, fun o => rfl, fun o => Or.inr rfl⟩
  | reason v => exact ⟨_, fun h e => rfl, fun o => rfl, fun o => Or.inl rfl⟩
  | base v => exact ⟨_, fun h e => rfl, fun o => rfl, fun o => Or.inl rfl⟩
  | statusCode v => exact ⟨_, fun h e => rfl, fun o => rfl, fun o => Or.inl rfl⟩

/-- The effect of one call on the heap: error codes of existing exceptions stay, and
unless the call is `WithMetadata(nil)` no struct gets a nil metadata map. -/
theorem exec_heap_props {T : Type} [DecidableEq T] [ErrorCode T]
    (FormatFloat : Nat → String) (w w1 : World T) (c : Call T)
    (hx : exec FormatFloat w c = Outcome.ok w1) :
    CodesKept w.heap w1.heap ∧
    (c.storesNilMetadata = false → MetadataAllocated w.heap → MetadataAllocated w1.heap) := by
  have same : ∀ w2 : World T, w2.heap = w.heap →
      CodesKept w.heap w2.heap ∧
      (c.storesNilMetadata = false → MetadataAllocated w.heap → MetadataAllocated w2.heap) := by
    intro w2 h2
    rw [h2]
    exact ⟨CodesKept.refl _, fun _ hall => hall⟩
  cases c with
  | new k msg =>
    simp [exec] at hx
    rw [← hx]
    exact ⟨(New_props w.heap k msg).1, fun _ => (New_props w.heap k msg).2⟩
  | newWithBase k msg b =>
    cases hr : NewWithBase w.heap k msg b with
    | panic p => simp [exec, World.keepHeap, hr] at hx
    | ok r =>
      obtain ⟨e1, h1⟩ := r
      simp [exec, World.keepHeap, hr] at hx
      rw [← hx]
      obtain ⟨hk, hm⟩ := New_props w.heap k msg
      have hr1 : writeField (fun o => { o with base := b }) (New w.heap k msg).2
          (New w.heap k msg).1 = Outcome.ok (e1, h1) := hr
      obtain ⟨hk2, hm2⟩ := writeField_props _ _ h1 _ e1 hr1 (fun o => rfl)
      exact ⟨hk.trans hk2, fun _ hall => hm2 (fun o ho => ho) (hm hall)⟩
  | newForAPI k msg s =>
    cases hr : NewForAPI w.heap k msg s with
    | panic p => simp [exec, World.keepHeap, hr] at hx
    | ok r =>
      obtain ⟨e1, h1⟩ := r
      simp [exec, World.keepHeap, hr] at hx
      rw [← hx]
      obtain ⟨hk, hm⟩ := New_props w.heap k msg
      have hr1 : writeField (fun o => { o with statusCode := s }) (New w.heap k msg).2
          (New w.heap k msg).1 = Outcome.ok (e1, h1) := hr
      obtain ⟨hk2, hm2⟩ := writeField_props _ _ h1 _ e1 hr1 (fun o => rfl)
      exact ⟨hk.trans hk2, fun _ hall => hm2 (fun o ho => ho) (hm hall)⟩
  | mutate e μ =>
    cases hr : μ.call w.heap e with
    | panic p => simp [exec, World.keepHeap, hr] at hx
    | ok r =>
      obtain ⟨e1, h1⟩ := r
      simp [exec, World.keepHeap, hr] at hx
      rw [← hx]
      obtain ⟨f, hf, hcode, hmeta⟩ := Mutator.call_frame (T := T) μ
      rw [hf] at hr
      obtain ⟨hk2, hm2⟩ := writeField_props f _ h1 _ e1 hr hcode
      refine ⟨hk2, fun hnil hall => hm2 ?_ hall⟩
      intro o ho
      rcases hmeta o with hsame | hset
      · rw [hsame]; exact ho
      · intro hcon
        rw [hcon] at hset
        rw [hset] at hnil
        simp [Call.storesNilMetadata] at hnil
  | clone e =>
    cases hr : Clone w.heap e with
    | panic p => simp [exec, World.keepHeap, hr] at hx
    | ok r =>
      obtain ⟨e1, h1⟩ := r
      simp [exec, World.keepHeap, hr] at hx
      rw [← hx]
      exact ⟨(Clone_props _ h1 e e1 hr).1, fun _ => (Clone_props _ h1 e e1 hr).2⟩
  | makeMap =>
    simp [exec] at hx
    rw [← hx]
    exact ⟨CodesKept_of_objs _ _ rfl, fun _ hall => hall⟩
  | storeMapEntry md k v =>
    cases hr : storeMapEntry w.heap md k v with
    | panic p => simp [exec, hr] at hx
    | ok h1 =>
      simp [exec, hr] at hx
      rw [← hx]
      have hobjs : h1.objs = w.heap.objs := by
        cases md with
        | none => simp [storeMapEntry] at hr
        | some r =>
          cases hg : w.heap.maps[r]? with
          | none => simp [storeMapEntry, hg] at hr
          | some mp =>
            simp [storeMapEntry, hg] at hr
            rw [← hr]
      refine ⟨CodesKept_of_objs _ _ hobjs, fun _ hall => ?_⟩
      simp only [MetadataAllocated, hobjs]
      exact hall
  | set x =>
    simp [exec] at hx
    exact same w1 (by rw [← hx])
  | add e =>
    cases hr : Add w.mgr w.heap e with
    | panic p => simp [exec, World.keepMgr, hr] at hx
    | ok r =>
      simp [exec, World.keepMgr, hr] at hx
      exact same w1 (by rw [← hx])
  | safeAdd e =>
    cases hr : SafeAdd FormatFloat w.mgr w.heap e with
    | panic p => simp [exec, hr] at hx
    | ok r =>
      simp [exec, hr] at hx
      exact same w1 (by rw [← hx])
  | addAll es =>
    cases hr : AddAll w.mgr w.heap es with
    | panic p => simp [exec, World.keepMgr, hr] at hx
    | ok r =>
      simp [exec, World.keepMgr, hr] at hx
      exact same w1 (by rw [← hx])
  | safeAddAll es =>
    cases hr : SafeAddAll FormatFloat w.mgr w.heap es with
    | panic p => simp [exec, hr] at hx
    | ok r =>
      simp [exec, hr] at hx
      exact same w1 (by rw [← hx])
  | get k =>
    cases hr : Get w.mgr w.heap k with
    | panic p => simp [exec, World.keepHeap, hr] at hx
    | ok r =>
      obtain ⟨e1, h1⟩ := r
      simp [exec, World.keepHeap, hr] at hx
      rw [← hx]
      exact ⟨(Clone_props _ h1 _ e1 hr).1, fun _ => (Clone_props _ h1 _ e1 hr).2⟩
  | getAll =>
    cases hr : GetAll w.mgr w.heap with
    | panic p => simp [exec, World.keepHeap, hr] at hx
    | ok r =>
      obtain ⟨es1, h1⟩ := r
      simp [exec, World.keepHeap, hr] at hx
      rw [← hx]
      cases hmp : w.mgr.cache with
      | none =>
        simp [GetAll, hmp] at hr
        rw [← hr.2]
        exact ⟨CodesKept.refl _, fun _ hall => hall⟩
      | some mp =>
        simp only [GetAll, hmp] at hr
        exact ⟨(cloneAll_props _ _ h1 _ es1 hr).1, fun _ => (cloneAll_props _ _ h1 _ es1 hr).2⟩
  | remove k =>
    simp [exec] at hx
    exact same w1 (by rw [← hx])
  | clear =>
    simp [exec] at hx
    exact same w1 (by rw [← hx])

theorem run_MetadataAllocated {T : Type} [DecidableEq T] [ErrorCode T]
    (FormatFloat : Nat → String) (calls : List (Call T)) :
    ∀ (w w1 : World T), run FormatFloat w calls = Outcome.ok w1 →
      (∀ c ∈ calls, c.storesNilMetadata = false) →
      MetadataAllocated w.heap → MetadataAllocated w1.heap := by
  induction calls with
  | nil =>
    intro w w1 hr _ hall
    simp [run] at hr
    rw [← hr]; exact hall
  | cons c cs ih =>
    intro w w1 hr hnil hall
    cases hx : exec FormatFloat w c with
    | panic p => simp [run, hx] at hr
    | ok w2 =>
      simp [run, hx] at hr
      exact ih w2 w1 hr (fun d hd => hnil d (List.mem_cons_of_mem c hd))
        ((exec_heap_props FormatFloat w w2 c hx).2 (hnil c (List.mem_cons_self c cs)) hall)

/-- C10, counterexample: `New("E1", "m1").WithMetadata(nil)` succeeds and `Metadata()` of
the result is the nil map. -/
theorem metadata_nil_counterexample :
    WithMetadata (New (Heap.empty : Heap String) "E1" "m1").2 (some 0) none =
      Outcome.ok (some 0,
        ⟨[{ base := none, message := "m1", displayMessage := "", errType := "",
            errCode := "E1", stackTrace := [], reason := GoValue.nil, metadata := none,
            statusCode := 0 }], [[]]⟩) ∧
    Metadata
      (⟨[{ base := none, message := "m1", displayMessage := "", errType := "",
           errCode := "E1", stackTrace := [], reason := GoValue.nil, metadata := none,
           statusCode := 0 }], [[]]⟩ : Heap String) (some 0) = Outcome.ok none := by
  decide

/-- C10, amended: in every state reached from an empty heap by a client program (the
constructors, the `With*` mutators, `Clone`, and the Manager calls) that never calls
`WithMetadata` with the nil map, every exception of the heap has a non-nil `Metadata()`. -/
theorem metadata_never_nil {T : Type} [DecidableEq T] [ErrorCode T]
    (FormatFloat : Nat → String) (calls : List (Call T)) (w : World T)
    (hrun : run FormatFloat World.start calls = Outcome.ok w)
    (hnil : ∀ c ∈ calls, c.storesNilMetadata = false) :
    ∀ e o, deref w.heap e = Outcome.ok o → ∃ r, Metadata w.heap e = Outcome.ok (some r) := by
  intro e o he
  have hall : MetadataAllocated w.heap :=
    run_MetadataAllocated FormatFloat calls World.start w hrun hnil
      (by intro o1 ho1; simp [World.start, Heap.empty] at ho1)
  obtain ⟨p, _, hp⟩ := (deref_ok_iff w.heap e o).1 he
  have hmd := hall o (List.getElem?_mem hp)
  cases hm : o.metadata with
  | none => exact absurd hm hmd
  | some r => exact ⟨r, by simp [Metadata, readField, he, hm]⟩


/-- Witness for the amended C10: `New("E1", "m1")`, a clone of it, and
`WithDisplayMessage("shown")` on the clone. -/
theorem metadata_never_nil_witness :
    run (fun _ => "") (World.start : World String)
        [Call.new "E1" "m1", Call.clone (some 0),
          Call.mutate (some 1) (Mutator.displayMessage "shown")] =
      Outcome.ok ⟨⟨[sampleStruct, { sampleStruct with displayMessage := "shown" }], [[]]⟩,
        NewManager⟩ ∧
    (∀ c ∈ [Call.new "E1" "m1", Call.clone (some 0),
          Call.mutate (some 1) (Mutator.displayMessage "shown")],
      Call.storesNilMetadata (T := String) c = false) ∧
    ∀ e o,
      deref (⟨[sampleStruct, { sampleStruct with displayMessage := "shown" }], [[]]⟩ :
        Heap String) e = Outcome.ok o →
      ∃ r, Metadata (⟨[sampleStruct, { sampleStruct with displayMessage := "shown" }], [[]]⟩ :
        Heap String) e = Outcome.ok (some r) :=
  ⟨by decide, by decide,
   metadata_never_nil (fun _ => "")
     [Call.new "E1" "m1", Call.clone (some 0),
       Call.mutate (some 1) (Mutator.displayMessage "shown")]
     ⟨⟨[sampleStruct, { sampleStruct with displayMessage := "shown" }], [[]]⟩, NewManager⟩
     (by decide) (by decide)⟩

theorem mem_mapAssign {K V : Type} [DecidableEq K] (mp : GoMap K V) (k0 : K) (v0 : V)
    (k : K) (v : V) (hmem : (k, v) ∈ mapAssign mp k0 v0) :
    (k, v) = (k0, v0) ∨ (k, v) ∈ mp := by
  induction mp with
  | nil =>
    simp [mapAssign] at hmem
    exact Or.inl (by rw [hmem.1, hmem.2])
  | cons kv rest ih =>
    obtain ⟨k1, v1⟩ := kv
    by_cases hk : k1 = k0
    · simp only [mapAssign, hk, if_true, List.mem_cons] at hmem
      rcases hmem with h1 | h1
      · exact Or.inl h1
      · exact Or.inr (List.mem_cons_of_mem _ h1)
    · simp only [mapAssign, hk, if_false, List.mem_cons] at hmem
      rcases hmem with h1 | h1
      · exact Or.inr (by rw [h1]; exact List.mem_cons_self _ _)
      · rcases ih h1 with h2 | h2
        · exact Or.inl h2
        · exact Or.inr (List.mem_cons_of_mem _ h2)

theorem cacheStore_KeyInvariant {T : Type} [DecidableEq T] (m m1 : Manager T) (h : Heap T)
    (e : Exception) (hs : cacheStore m h e = Outcome.ok m1) (hinv : KeyInvariant m h) :
    KeyInvariant m1 h := by
  obtain ⟨mp, o, hmp, ho, hm1⟩ := cacheStore_ok m m1 h e hs
  subst hm1
  intro mp1 hmp1 k v hmem
  simp at hmp1
  subst hmp1
  rcases mem_mapAssign mp o.errCode e k v hmem with heq | hold
  · injection heq with hk hv
    rw [hk, hv]
    exact ErrCode_of_deref h e o ho
  · exact hinv mp hmp k v hold

theorem AddAll_KeyInvariant {T : Type} [DecidableEq T] (h : Heap T) (es : List Exception) :
    ∀ (m m1 : Manager T), AddAll m h es = Outcome.ok m1 → KeyInvariant m h →
      KeyInvariant m1 h := by
  induction es with
  | nil =>
    intro m m1 hs hinv
    simp [AddAll] at hs
    rw [← hs]; exact hinv
  | cons e es ih =>
    intro m m1 hs hinv
    cases hc : cacheStore m h e with
    | panic c => simp [AddAll, hc] at hs
    | ok m2 =>
      simp [AddAll, hc] at hs
      exact ih m2 m1 hs (cacheStore_KeyInvariant m m2 h e hc hinv)

theorem KeyInvariant_of_CodesKept {T : Type} (m : Manager T) (h h1 : Heap T)
    (hk : CodesKept h h1) (hinv : KeyInvariant m h) : KeyInvariant m h1 :=
  fun mp hmp k v hmem => hk v k (hinv mp hmp k v hmem)

/-- One call keeps the key invariant, provided a `Set` passes a mapping that has it. -/
theorem exec_KeyInvariant {T : Type} [DecidableEq T] [ErrorCode T]
    (FormatFloat : Nat → String) (w w1 : World T) (c : Call T)
    (hx : exec FormatFloat w c = Outcome.ok w1)
    (hset : ∀ x, c = Call.set x → KeyInvariant ⟨x⟩ w.heap)
    (hinv : KeyInvariant w.mgr w.heap) : KeyInvariant w1.mgr w1.heap := by
  have hkept := (exec_heap_props FormatFloat w w1 c hx).1
  have heapOnly : w1.mgr = w.mgr → KeyInvariant w1.mgr w1.heap := by
    intro hm
    rw [hm]
    exact KeyInvariant_of_CodesKept _ _ _ hkept hinv
  cases c with
  | new k msg => simp [exec] at hx; exact heapOnly (by rw [← hx])
  | newWithBase k msg b =>
    cases hr : NewWithBase w.heap k msg b with
    | panic p => simp [exec, World.keepHeap, hr] at hx
    | ok r => simp [exec, World.keepHeap, hr] at hx; exact heapOnly (by rw [← hx])
  | newForAPI k msg s =>
    cases hr : NewForAPI w.heap k msg s with
    | panic p => simp [exec, World.keepHeap, hr] at hx
    | ok r => simp [exec, World.keepHeap, hr] at hx; exact heapOnly (by rw [← hx])
  | mutate e μ =>
    cases hr : μ.call w.heap e with
    | panic p => simp [exec, World.keepHeap, hr] at hx
    | ok r => simp [exec, World.keepHeap, hr] at hx; exact heapOnly (by rw [← hx])
  | clone e =>
    cases hr : Clone w.heap e with
    | panic p => simp [exec, World.keepHeap, hr] at hx
    | ok r => simp [exec, World.keepHeap, hr] at hx; exact heapOnly (by rw [← hx])
  | makeMap => simp [exec] at hx; exact heapOnly (by rw [← hx])
  | storeMapEntry md k v =>
    cases hr : storeMapEntry w.heap md k v with
    | panic p => simp [exec, hr] at hx
    | ok r => simp [exec, hr] at hx; exact heapOnly (by rw [← hx])
  | set x =>
    simp [exec] at hx
    rw [← hx]
    exact hset x rfl
  | add e =>
    cases hr : Add w.mgr w.heap e with
    | panic p => simp [exec, World.keepMgr, hr] at hx
    | ok r =>
      simp [exec, World.keepMgr, hr] at hx
      rw [← hx]
      exact cacheStore_KeyInvariant w.mgr r w.heap e hr hinv
  | safeAdd e =>
    cases hr : SafeAdd FormatFloat w.mgr w.heap e with
    | panic p => simp [exec, hr] at hx
    | ok r =>
      obtain ⟨err, m1⟩ := r
      simp [exec, hr] at hx
      rw [← hx]
      simp only [SafeAdd] at hr
      cases hk : ErrCode w.heap e with
      | panic p => simp [hk] at hr
      | ok k =>
        simp only [hk] at hr
        split at hr
        · injection hr with hr
          injection hr with _ hr
          rw [← hr]; exact hinv
        · cases ha : Add w.mgr w.heap e with
          | panic p => simp [ha] at hr
          | ok m2 =>
            simp [ha] at hr
            rw [← hr.2]
            exact cacheStore_KeyInvariant w.mgr m2 w.heap e ha hinv
  | addAll es =>
    cases hr : AddAll w.mgr w.heap es with
    | panic p => simp [exec, World.keepMgr, hr] at hx
    | ok r =>
      simp [exec, World.keepMgr, hr] at hx
      rw [← hx]
      exact AddAll_KeyInvariant w.heap es w.mgr r hr hinv
  | safeAddAll es =>
    cases hr : SafeAddAll FormatFloat w.mgr w.heap es with
    | panic p => simp [exec, hr] at hx
    | ok r =>
      obtain ⟨err, m1⟩ := r
      simp [exec, hr] at hx
      rw [← hx]
      simp only [SafeAddAll] at hr
      cases hf : firstCollision w.mgr w.heap es with
      | panic p => simp [hf] at hr
      | ok fc =>
        cases fc with
        | some k =>
          simp [hf] at hr
          rw [← hr.2]; exact hinv
        | none =>
          simp only [hf] at hr
          cases ha : AddAll w.mgr w.heap es with
          | panic p => simp [ha] at hr
          | ok m2 =>
            simp [ha] at hr
            rw [← hr.2]
            exact AddAll_KeyInvariant w.heap es w.mgr m2 ha hinv
  | get k =>
    cases hr : Get w.mgr w.heap k with
    | panic p => simp [exec, World.keepHeap, hr] at hx
    | ok r => simp [exec, World.keepHeap, hr] at hx; exact heapOnly (by rw [← hx])
  | getAll =>
    cases hr : GetAll w.mgr w.heap with
    | panic p => simp [exec, World.keepHeap, hr] at hx
    | ok r => simp [exec, World.keepHeap, hr] at hx; exact heapOnly (by rw [← hx])
  | remove k =>
    simp [exec] at hx
    rw [← hx]
    intro mp1 hmp1 k1 v1 hmem
    cases hmp : w.mgr.cache with
    | none => simp [Remove, hmp] at hmp1
    | some mp =>
      simp [Remove, hmp] at hmp1
      subst hmp1
      exact hinv mp hmp k1 v1 (List.mem_of_mem_filter hmem)
  | clear =>
    simp [exec] at hx
    rw [← hx]
    intro mp1 hmp1 k1 v1 hmem
    simp [Clear] at hmp1
    subst hmp1
    simp at hmem

/-- C6, counterexample: after `e := New("B", "m")` and `Set(map{"A": e})` the registry
stores under key "A" an exception whose `ErrCode()` is "B". -/
theorem set_breaks_key_invariant_counterexample :
    run (fun _ => "") (World.start : World String)
        [Call.new "B" "m", Call.set (some [("A", some 0)])] =
      Outcome.ok ⟨(New Heap.empty "B" "m").2, ⟨some [("A", some 0)]⟩⟩ ∧
    cacheIndex (⟨some [("A", some 0)]⟩ : Manager String) "A" = some (some 0) ∧
    ErrCode (New (Heap.empty : Heap String) "B" "m").2 (some 0) = Outcome.ok "B" ∧
    ¬ KeyInvariant (⟨some [("A", some 0)]⟩ : Manager String) (New Heap.empty "B" "m").2 := by
  refine ⟨by decide, by decide, by decide, ?_⟩
  intro hinv
  have h1 := hinv [("A", some 0)] rfl "A" (some 0) (List.mem_cons_self _ _)
  revert h1
  decide

/-- C6, amended: in every state reached from `NewManager()` by Add, AddAll, SafeAdd,
SafeAddAll, Remove, Clear and by Set called with a mapping in which every exception is
stored under its own `ErrCode()` (interleaved with any constructor, mutator, clone and
`Get` calls), every stored exception's own `ErrCode()` equals the key it is stored under. -/
theorem manager_key_invariant {T : Type} [DecidableEq T] [ErrorCode T]
    (FormatFloat : Nat → String) (w : World T) (hreach : KeyedReach FormatFloat w) :
    ∀ mp, w.mgr.cache = some mp → ∀ k v, (k, v) ∈ mp → ErrCode w.heap v = Outcome.ok k := by
  induction hreach with
  | start =>
    intro mp hmp k v hmem
    simp [World.start, NewManager] at hmp
    subst hmp
    simp at hmem
  | step w w1 c _ hset hx ih => exact exec_KeyInvariant FormatFloat w w1 c hx hset ih

/-- Witness for the amended C6: `New("E1", "m1")` followed by `Add` of it. -/
theorem manager_key_invariant_witness :
    KeyedReach (fun _ => "") (⟨sampleHeap, sampleManager⟩ : World String) ∧
    ∀ mp, sampleManager.cache = some mp → ∀ k v, (k, v) ∈ mp →
      ErrCode sampleHeap v = Outcome.ok k :=
  have hreach : KeyedReach (fun _ => "") (⟨sampleHeap, sampleManager⟩ : World String) :=
    KeyedReach.step ⟨sampleHeap, NewManager⟩ ⟨sampleHeap, sampleManager⟩ (Call.add (some 0))
      (KeyedReach.step World.start ⟨sampleHeap, NewManager⟩ (Call.new "E1" "m1")
        KeyedReach.start (fun x hx => by cases hx) (by decide))
      (fun x hx => by cases hx) (by decide)
  ⟨hreach, manager_key_invariant (fun _ => "") ⟨sampleHeap, sampleManager⟩ hreach⟩

/-- C11: for an exception `a` with struct `o`, `a.Clone()` (and `a.C()`, which is the same
call) returns a fresh exception `b`, distinct from `a`, whose struct equals `o` in every
field while `a` still reads `o`; any mutator applied to `b` succeeds and leaves the struct
of `a`, hence every accessor result on `a`, unchanged; and any mutator applied to `a`
after the clone leaves the struct of `b` unchanged. -/
theorem clone_isolation {T : Type} (h : Heap T) (a : Exception) (o : exception T)
    (ha : deref h a = Outcome.ok o) :
    ∃ b h1, Clone h a = Outcome.ok (b, h1) ∧ C h a = Outcome.ok (b, h1) ∧ b ≠ a ∧
      deref h1 b = Outcome.ok o ∧ deref h1 a = Outcome.ok o ∧
      ∀ μ : Mutator,
        (∃ h2, μ.call h1 b = Outcome.ok (b, h2) ∧ deref h2 a = Outcome.ok o ∧
          DisplayMessage h2 a = Outcome.ok o.displayMessage ∧
          ErrType h2 a = Outcome.ok o.errType ∧
          StatusCode h2 a = Outcome.ok o.statusCode ∧
          Reason h2 a = Outcome.ok o.reason ∧
          Base h2 a = Outcome.ok o.base) ∧
        (∃ h2, μ.call h1 a = Outcome.ok (a, h2) ∧ deref h2 b = Outcome.ok o ∧
          DisplayMessage h2 b = Outcome.ok o.displayMessage ∧
          ErrType h2 b = Outcome.ok o.errType ∧
          StatusCode h2 b = Outcome.ok o.statusCode ∧
          Reason h2 b = Outcome.ok o.reason ∧
          Base h2 b = Outcome.ok o.base) := by
  have hclone := Clone_of_deref h a o ha
  obtain ⟨p, hap, hp⟩ := (deref_ok_iff h a o).1 ha
  have hlt : p < h.objs.length := (List.getElem?_eq_some_iff.1 hp).1
  have hne : (some h.objs.length : Exception) ≠ a := by
    rw [hap]
    intro hcon
    injection hcon with hcon
    omega
  have hb : deref ({ h with objs := h.objs ++ [o] } : Heap T) (some h.objs.length)
      = Outcome.ok o := deref_append_new h o
  have ha1 : deref ({ h with objs := h.objs ++ [o] } : Heap T) a = Outcome.ok o :=
    deref_append_old h o a o ha
  refine ⟨_, _, hclone, hclone, hne, hb, ha1, ?_⟩
  intro μ
  obtain ⟨f, hf⟩ := Mutator.call_eq_writeField (T := T) μ
  constructor
  · obtain ⟨h2, hw, _, hframe, _, _⟩ := writeField_overwrites f _ _ _ hb
    have hd : deref h2 a = Outcome.ok o := by
      rw [hframe a (fun hcon => hne hcon.symm)]
      exact ha1
    refine ⟨h2, by rw [hf]; exact hw, hd, ?_, ?_, ?_, ?_, ?_⟩ <;>
      simp [DisplayMessage, ErrType, StatusCode, Reason, Base, readField, hd]
  · obtain ⟨h2, hw, _, hframe, _, _⟩ := writeField_overwrites f _ _ _ ha1
    have hd : deref h2 (some h.objs.length) = Outcome.ok o := by
      rw [hframe _ hne]
      exact hb
    refine ⟨h2, by rw [hf]; exact hw, hd, ?_, ?_, ?_, ?_, ?_⟩ <;>
      simp [DisplayMessage, ErrType, StatusCode, Reason, Base, readField, hd]

/-- Witness for C11 on the exception `New("E1", "m1")`. -/
theorem clone_isolation_witness :
    deref sampleHeap (some 0) = Outcome.ok sampleStruct ∧
    ∃ b h1, Clone sampleHeap (some 0) = Outcome.ok (b, h1) ∧
      C sampleHeap (some 0) = Outcome.ok (b, h1) ∧ b ≠ some 0 ∧
      deref h1 b = Outcome.ok sampleStruct ∧ deref h1 (some 0) = Outcome.ok sampleStruct ∧
      ∀ μ : Mutator,
        (∃ h2, μ.call h1 b = Outcome.ok (b, h2) ∧ deref h2 (some 0) = Outcome.ok sampleStruct ∧
          DisplayMessage h2 (some 0) = Outcome.ok sampleStruct.displayMessage ∧
          ErrType h2 (some 0) = Outcome.ok sampleStruct.errType ∧
          StatusCode h2 (some 0) = Outcome.ok sampleStruct.statusCode ∧
          Reason h2 (some 0) = Outcome.ok sampleStruct.reason ∧
          Base h2 (some 0) = Outcome.ok sampleStruct.base) ∧
        (∃ h2, μ.call h1 (some 0) = Outcome.ok (some 0, h2) ∧
          deref h2 b = Outcome.ok sampleStruct ∧
          DisplayMessage h2 b = Outcome.ok sampleStruct.displayMessage ∧
          ErrType h2 b = Outcome.ok sampleStruct.errType ∧
          StatusCode h2 b = Outcome.ok sampleStruct.statusCode ∧
          Reason h2 b = Outcome.ok sampleStruct.reason ∧
          Base h2 b = Outcome.ok sampleStruct.base) :=
  ⟨by decide, clone_isolation sampleHeap (some 0) sampleStruct (by decide)⟩

theorem deref_of_objs_eq {T : Type} (h h1 : Heap T) (hobjs : h1.objs = h.objs)
    (q : Exception) : deref h1 q = deref h q := by
  cases q with
  | none => rfl
  | some p => simp only [deref, hobjs]

/-- C12: for an exception `a` whose metadata is the non-nil map `r` (holding `mp`),
`b := a.Clone()` has the very same map reference as metadata, so a store `md[k] = v` on
the map returned by `b.Metadata()` is read back through `a.Metadata()`; whereas
`b.WithMetadata(M2)` gives `b` the map `M2`, leaves `a.Metadata()` the map `r` and writes
to no map. -/
theorem clone_shares_metadata {T : Type} (h : Heap T) (a : Exception) (o : exception T)
    (r : Nat) (mp : GoMap String GoValue) (ha : deref h a = Outcome.ok o)
    (hmd : o.metadata = some r) (hmp : h.maps[r]? = some mp) :
    ∃ b h1, Clone h a = Outcome.ok (b, h1) ∧ b ≠ a ∧
      Metadata h1 a = Outcome.ok (some r) ∧ Metadata h1 b = Outcome.ok (some r) ∧
      (∀ k v, ∃ h2, storeMapEntry h1 (some r) k v = Outcome.ok h2 ∧
        Metadata h2 a = Outcome.ok (some r) ∧ Metadata h2 b = Outcome.ok (some r) ∧
        loadMapEntry h2 (some r) k = some v ∧
        h2.maps[r]? = some (mapAssign mp k v)) ∧
      (∀ M2, ∃ h2, WithMetadata h1 b M2 = Outcome.ok (b, h2) ∧
        Metadata h2 b = Outcome.ok M2 ∧ Metadata h2 a = Outcome.ok (some r) ∧
        h2.maps = h.maps) := by
  have hclone := Clone_of_deref h a o ha
  obtain ⟨p, hap, hp⟩ := (deref_ok_iff h a o).1 ha
  have hlt : p < h.objs.length := (List.getElem?_eq_some_iff.1 hp).1
  have hrlt : r < h.maps.length := (List.getElem?_eq_some_iff.1 hmp).1
  have hne : (some h.objs.length : Exception) ≠ a := by
    rw [hap]
    intro hcon
    injection hcon with hcon
    omega
  have hb : deref ({ h with objs := h.objs ++ [o] } : Heap T) (some h.objs.length)
      = Outcome.ok o := deref_append_new h o
  have ha1 : deref ({ h with objs := h.objs ++ [o] } : Heap T) a = Outcome.ok o :=
    deref_append_old h o a o ha
  refine ⟨_, _, hclone, hne, by simp [Metadata, readField, ha1, hmd],
    by simp [Metadata, readField, hb, hmd], ?_, ?_⟩
  · intro k v
    refine ⟨{ objs := h.objs ++ [o], maps := h.maps.set r (mapAssign mp k v) }, ?_, ?_, ?_, ?_, ?_⟩
    · simp [storeMapEntry, hmp]
    · have hd := deref_of_objs_eq ({ h with objs := h.objs ++ [o] } : Heap T)
        { objs := h.objs ++ [o], maps := h.maps.set r (mapAssign mp k v) } rfl a
      simp [Metadata, readField, hd, ha1, hmd]
    · have hd := deref_of_objs_eq ({ h with objs := h.objs ++ [o] } : Heap T)
        { objs := h.objs ++ [o], maps := h.maps.set r (mapAssign mp k v) } rfl
        (some h.objs.length)
      simp [Metadata, readField, hd, hb, hmd]
    · simp [loadMapEntry, List.getElem?_set, hrlt, mapIndex_mapAssign_self]
    · simp [List.getElem?_set, hrlt]
  · intro M2
    obtain ⟨h2, hw, hd2, hframe, hmaps, _⟩ :=
      writeField_overwrites (fun o => { o with metadata := M2 }) _ _ _ hb
    refine ⟨h2, hw, by simp [Metadata, readField, hd2], ?_, hmaps⟩
    have hd : deref h2 a = Outcome.ok o := by
      rw [hframe a (fun hcon => hne hcon.symm)]
      exact ha1
    simp [Metadata, readField, hd, hmd]

/-- Witness for C12 on the exception `New("E1", "m1")`, whose metadata is map object 0. -/
theorem clone_shares_metadata_witness :
    deref sampleHeap (some 0) = Outcome.ok sampleStruct ∧
    sampleStruct.metadata = some 0 ∧ sampleHeap.maps[0]? = some [] ∧
    ∃ b h1, Clone sampleHeap (some 0) = Outcome.ok (b, h1) ∧ b ≠ some 0 ∧
      Metadata h1 (some 0) = Outcome.ok (some 0) ∧ Metadata h1 b = Outcome.ok (some 0) ∧
      (∀ k v, ∃ h2, storeMapEntry h1 (some 0) k v = Outcome.ok h2 ∧
        Metadata h2 (some 0) = Outcome.ok (some 0) ∧ Metadata h2 b = Outcome.ok (some 0) ∧
        loadMapEntry h2 (some 0) k = some v ∧
        h2.maps[0]? = some (mapAssign [] k v)) ∧
      (∀ M2, ∃ h2, WithMetadata h1 b M2 = Outcome.ok (b, h2) ∧
        Metadata h2 b = Outcome.ok M2 ∧ Metadata h2 (some 0) = Outcome.ok (some 0) ∧
        h2.maps = sampleHeap.maps) :=
  ⟨by decide, by decide, by decide,
   clone_shares_metadata sampleHeap (some 0) sampleStruct 0 [] (by decide) (by decide)
     (by decide)⟩

theorem digitChar_value (k : Nat) (hk : k < 10) :
    (Nat.digitChar k).toNat - 48 = k ∧ 48 ≤ (Nat.digitChar k).toNat ∧
      (Nat.digitChar k).toNat ≤ 57 := by
  interval_cases k <;> decide

/-- The digits produced by `Nat.toDigitsCore` in base 10, read from the left, denote the
number they were produced from. -/
theorem toDigitsCore_decimal (fuel : Nat) :
    ∀ (n : Nat) (ds : List Char), n < fuel →
      ∃ xs, Nat.toDigitsCore 10 fuel n ds = xs ++ ds ∧
        xs.foldl (fun acc c => acc * 10 + (c.toNat - 48)) 0 = n ∧
        ∀ c ∈ xs, 48 ≤ c.toNat ∧ c.toNat ≤ 57 := by
  induction fuel with
  | zero => intro n ds hn; omega
  | succ fuel ih =>
    intro n ds hn
    have hd := digitChar_value (n % 10) (Nat.mod_lt n (by decide))
    by_cases hz : n / 10 = 0
    · refine ⟨[Nat.digitChar (n % 10)], ?_, ?_, ?_⟩
      · simp [Nat.toDigitsCore, hz]
      · simp only [List.foldl, hd.1]
        omega
      · intro c hc
        rw [List.mem_singleton.1 hc]
        exact hd.2
    · have hlt : n / 10 < fuel := by omega
      obtain ⟨xs, hxs, hval, hdig⟩ := ih (n / 10) (Nat.digitChar (n % 10) :: ds) hlt
      refine ⟨xs ++ [Nat.digitChar (n % 10)], ?_, ?_, ?_⟩
      · simp [Nat.toDigitsCore, hz, hxs]
      · rw [List.foldl_append, hval]
        simp only [List.foldl, hd.1]
        omega
      · intro c hc
        rcases List.mem_append.1 hc with h1 | h1
        · exact hdig c h1
        · rw [List.mem_singleton.1 h1]
          exact hd.2

theorem repr_decimal (n : Nat) : decimalValue (Nat.repr n) = n ∧ allDigits (Nat.repr n) := by
  obtain ⟨xs, hxs, hval, hdig⟩ := toDigitsCore_decimal (n + 1) n [] (Nat.lt_succ_self n)
  have hdata : (Nat.repr n).data = xs := by
    simp [Nat.repr, Nat.toDigits, hxs, List.asString]
  exact ⟨by simp [decimalValue, hdata, hval], by simpa [allDigits, hdata] using hdig⟩

/-- The model of `strconv.Itoa` writes base-10 text: the digits of a non-negative integer,
and a minus sign followed by the digits of the absolute value of a negative one. -/
theorem Itoa_decimal (x : Int) :
    (0 ≤ x → allDigits (Itoa x) ∧ (decimalValue (Itoa x) : Int) = x) ∧
    (x < 0 → ∃ s, Itoa x = "-" ++ s ∧ allDigits s ∧ (decimalValue s : Int) = -x) := by
  obtain ⟨hval, hdig⟩ := repr_decimal x.natAbs
  constructor
  · intro hx
    have hnot : ¬ x < 0 := by omega
    simp only [Itoa, hnot, if_false]
    exact ⟨hdig, by rw [hval]; omega⟩
  · intro hx
    refine ⟨Nat.repr x.natAbs, by simp [Itoa, hx], hdig, ?_⟩
    rw [hval]
    omega

theorem digitChar_eq_zero (k : Nat) (hk : k < 10) (h0 : Nat.digitChar k = '0') : k = 0 := by
  interval_cases k <;> first | rfl | (revert h0; decide)

/-- The digits produced by `Nat.toDigitsCore` in base 10 form the numeral of the number:
they denote it and start with 0 only for the number 0. -/
theorem toDigitsCore_numeral (fuel : Nat) :
    ∀ (n : Nat) (ds : List Char), n < fuel →
      ∃ xs, Nat.toDigitsCore 10 fuel n ds = xs ++ ds ∧ xs ≠ [] ∧
        xs.foldl (fun acc c => acc * 10 + (c.toNat - 48)) 0 = n ∧
        (∀ c ∈ xs, 48 ≤ c.toNat ∧ c.toNat ≤ 57) ∧
        (xs.head? = some '0' → xs = ['0']) := by
  induction fuel with
  | zero => intro n ds hn; omega
  | succ fuel ih =>
    intro n ds hn
    have hd := digitChar_value (n % 10) (Nat.mod_lt n (by decide))
    by_cases hz : n / 10 = 0
    · refine ⟨[Nat.digitChar (n % 10)], ?_, by simp, ?_, ?_, ?_⟩
      · simp [Nat.toDigitsCore, hz]
      · simp only [List.foldl, hd.1]
        omega
      · intro c hc
        rw [List.mem_singleton.1 hc]
        exact hd.2
      · intro hhead
        simp only [List.head?_cons, Option.some.injEq] at hhead
        rw [hhead]
    · have hlt : n / 10 < fuel := by omega
      obtain ⟨xs, hxs, hne, hval, hdig, hhead⟩ :=
        ih (n / 10) (Nat.digitChar (n % 10) :: ds) hlt
      refine ⟨xs ++ [Nat.digitChar (n % 10)], ?_, by simp, ?_, ?_, ?_⟩
      · simp [Nat.toDigitsCore, hz, hxs]
      · rw [List.foldl_append, hval]
        simp only [List.foldl, hd.1]
        omega
      · intro c hc
        rcases List.mem_append.1 hc with h1 | h1
        · exact hdig c h1
        · rw [List.mem_singleton.1 h1]
          exact hd.2
      · intro hh
        exfalso
        have hh1 : xs.head? = some '0' := by
          cases xs with
          | nil => exact absurd rfl hne
          | cons x rest => simpa using hh
        have hx0 := hhead hh1
        rw [hx0] at hval
        simp only [List.foldl] at hval
        have : ('0' : Char).toNat - 48 = 0 := by decide
        omega

theorem repr_isDecimalOf (n : Nat) : isDecimalOf (Nat.repr n) n := by
  obtain ⟨xs, hxs, hne, hval, hdig, hhead⟩ :=
    toDigitsCore_numeral (n + 1) n [] (Nat.lt_succ_self n)
  have hdata : (Nat.repr n).data = xs := by
    simp [Nat.repr, Nat.toDigits, hxs, List.asString]
  refine ⟨by rw [hdata]; exact hne, ?_, ?_, ?_⟩
  · simpa [allDigits, hdata] using hdig
  · simp [decimalValue, hdata, hval]
  · rw [hdata]
    exact hhead

/-- The model of `strconv.Itoa` writes the decimal numeral of the absolute value, after a
minus sign for a negative integer. -/
theorem Itoa_numeral (x : Int) :
    ∃ s, isDecimalOf s x.natAbs ∧ Itoa x = (if x < 0 then "-" ++ s else s) :=
  ⟨Nat.repr x.natAbs, repr_isDecimalOf x.natAbs, by
    by_cases hx : x < 0 <;> simp [Itoa, hx]⟩

/-- No mutator touches the error code or the message. -/
theorem Mutator.call_keeps_code_and_message {T : Type} (μ : Mutator) :
    ∃ f : exception T → exception T,
      (∀ (h : Heap T) (e : Exception), μ.call h e = writeField f h e) ∧
      (∀ o, (f o).errCode = o.errCode) ∧ (∀ o, (f o).message = o.message) := by
  cases μ with
  | errType v => exact ⟨_, fun h e => rfl, fun o => rfl, fun o => rfl⟩
  | displayMessage v => exact ⟨_, fun h e => rfl, fun o => rfl, fun o => rfl⟩
  | metadata v => exact ⟨_, fun h e => rfl, fun o => rfl, fun o => rfl⟩
  | reason v => exact ⟨_, fun h e => rfl, fun o => rfl, fun o => rfl⟩
  | base v => exact ⟨_, fun h e => rfl, fun o => rfl, fun o => rfl⟩
  | statusCode v => exact ⟨_, fun h e => rfl, fun o => rfl, fun o => rfl⟩

/-- C13: for an exception `e` with struct `o`, `e.Error()` is `Stringify` of the code,
then ": ", then the message, and no `With*` mutator changes it; for a string code the
result is the code itself followed by ": " and the message; for an int code `n` it is the
decimal numeral of `n` (the digits of the absolute value without leading zero, after a
minus sign when `n` is negative), which is what `Itoa` writes, followed by ": " and the
message. -/
theorem error_rendering {T : Type} [ErrorCode T] (FormatFloat : Nat → String) (h : Heap T)
    (e : Exception) (o : exception T) (he : deref h e = Outcome.ok o) :
    Error FormatFloat h e =
      Outcome.ok (Stringify FormatFloat (ErrorCode.toInterface o.errCode) ++ ": " ++ o.message) ∧
    (∀ μ : Mutator, ∃ h2, μ.call h e = Outcome.ok (e, h2) ∧
      Error FormatFloat h2 e = Error FormatFloat h e) ∧
    (∀ (hs : Heap String) (es : Exception) (os : exception String),
      deref hs es = Outcome.ok os →
      Error FormatFloat hs es = Outcome.ok (os.errCode ++ ": " ++ os.message)) ∧
    (∀ (hi : Heap Int) (ei : Exception) (oi : exception Int),
      deref hi ei = Outcome.ok oi →
      Error FormatFloat hi ei = Outcome.ok (Itoa oi.errCode ++ ": " ++ oi.message) ∧
      ∃ s, isDecimalOf s oi.errCode.natAbs ∧
        Error FormatFloat hi ei =
          Outcome.ok ((if oi.errCode < 0 then "-" ++ s else s) ++ ": " ++ oi.message)) := by
  refine ⟨by simp [Error, readField, he], ?_, ?_, ?_⟩
  · intro μ
    obtain ⟨f, hf, hcode, hmsg⟩ := Mutator.call_keeps_code_and_message (T := T) μ
    obtain ⟨h2, hw, hd2, _, _, _⟩ := writeField_overwrites f h e o he
    refine ⟨h2, by rw [hf]; exact hw, ?_⟩
    simp [Error, readField, he, hd2, hcode, hmsg]
  · intro hs es os hes
    simp [Error, readField, hes, Stringify, ErrorCode.toInterface]
  · intro hi ei oi hei
    have herr : Error FormatFloat hi ei
        = Outcome.ok (Itoa oi.errCode ++ ": " ++ oi.message) := by
      simp [Error, readField, hei, Stringify, ErrorCode.toInterface]
    obtain ⟨s, hs, hitoa⟩ := Itoa_numeral oi.errCode
    exact ⟨herr, s, hs, by rw [herr, hitoa]⟩

/-- Witness for C13: `New("E1", "m1").Error()` is "E1: m1", `New(404, "not found").Error()`
is "404: not found" and `New(-7, "below").Error()` is "-7: below". -/
theorem error_rendering_witness :
    deref sampleHeap (some 0) = Outcome.ok sampleStruct ∧
    Error (fun _ => "") sampleHeap (some 0) = Outcome.ok "E1: m1" ∧
    Error (fun _ => "") (New (Heap.empty : Heap Int) 404 "not found").2 (some 0) =
      Outcome.ok "404: not found" ∧
    Error (fun _ => "") (New (Heap.empty : Heap Int) (-7) "below").2 (some 0) =
      Outcome.ok "-7: below" ∧
    (Error (fun _ => "") (New (Heap.empty : Heap Int) 404 "not found").2 (some 0) =
        Outcome.ok (Itoa 404 ++ ": " ++ "not found") ∧
      ∃ s, isDecimalOf s (404 : Int).natAbs ∧
        Error (fun _ => "") (New (Heap.empty : Heap Int) 404 "not found").2 (some 0) =
          Outcome.ok ((if (404 : Int) < 0 then "-" ++ s else s) ++ ": " ++ "not found")) :=
  ⟨by decide, by decide, by decide, by decide,
   (error_rendering (fun _ => "") sampleHeap (some 0) sampleStruct (by decide)).2.2.2
     (New (Heap.empty : Heap Int) 404 "not found").2 (some 0)
     { base := none, message := "not found", displayMessage := "", errType := "",
       errCode := 404, stackTrace := [], reason := GoValue.nil, metadata := some 0,
       statusCode := 0 }
     (by decide)⟩

/-- C14, counterexample: the 32-bit integer 5 (dynamic type `int32`) is sent to the default
branch of the type switch and rendered as the empty string, not as "5", while the same
value as `int` or `int64` is rendered as "5". -/
theorem stringify_int32_counterexample :
    Stringify (fun _ => "") (GoValue.int32 5) = "" ∧
    Stringify (fun _ => "") (GoValue.int 5) = "5" ∧
    Stringify (fun _ => "") (GoValue.int64 5) = "5" := by
  decide

/-- C14, amended: `Stringify` returns the text itself for a string, the base-10 text
(`Itoa`: the digits, after a minus sign when negative) for an `int` and an `int64`,
"true" or "false" for a boolean, the bytes as text for a byte slice, the concatenation of
the elements for a slice of strings, and the `strconv.FormatFloat` rendering for a
`float64`; for every other dynamic type, `int32` and the nil interface included, it
returns the empty string. -/
theorem stringify_coverage (FormatFloat : Nat → String) :
    (∀ x, Stringify FormatFloat (GoValue.string x) = x) ∧
    (∀ x, Stringify FormatFloat (GoValue.int x) = Itoa x) ∧
    (∀ x, Stringify FormatFloat (GoValue.int64 x) = Itoa x) ∧
    (∀ x : Int, (0 ≤ x → allDigits (Itoa x) ∧ (decimalValue (Itoa x) : Int) = x) ∧
      (x < 0 → ∃ s, Itoa x = "-" ++ s ∧ allDigits s ∧ (decimalValue s : Int) = -x)) ∧
    Stringify FormatFloat (GoValue.bool true) = "true" ∧
    Stringify FormatFloat (GoValue.bool false) = "false" ∧
    (∀ x, Stringify FormatFloat (GoValue.bytes x) = x) ∧
    (∀ x, Stringify FormatFloat (GoValue.strings x) = String.join x) ∧
    (∀ x, Stringify FormatFloat (GoValue.float64 x) = FormatFloat x) ∧
    (∀ x, Stringify FormatFloat (GoValue.int32 x) = "") ∧
    Stringify FormatFloat GoValue.nil = "" ∧
    (∀ t, Stringify FormatFloat (GoValue.other t) = "") :=
  ⟨fun _ => rfl, fun _ => rfl, fun _ => rfl, Itoa_decimal, rfl, rfl, fun _ => rfl,
    fun _ => rfl, fun _ => rfl, fun _ => rfl, rfl, fun _ => rfl⟩

/-- C15: for an exception `e` with struct `o`, `e.View()` returns a view whose Message,
DisplayMessage, ErrType, ErrCode, Metadata, StackTrace, Reason and StatusCode are the
results of the accessors of `e`, and whose Base is the empty string when `e.Base()` is nil
and the text of `e.Base().Error()` otherwise; `View` reads the heap and writes nothing. -/
theorem view_projection {T : Type} (h : Heap T) (e : Exception) (o : exception T)
    (he : deref h e = Outcome.ok o) :
    ∃ v, View h e = Outcome.ok v ∧
      Message h e = Outcome.ok v.Message ∧
      DisplayMessage h e = Outcome.ok v.DisplayMessage ∧
      ErrType h e = Outcome.ok v.ErrType ∧
      ErrCode h e = Outcome.ok v.ErrCode ∧
      Metadata h e = Outcome.ok v.Metadata ∧
      StackTrace h e = Outcome.ok v.StackTrace ∧
      Reason h e = Outcome.ok v.Reason ∧
      StatusCode h e = Outcome.ok v.StatusCode ∧
      (Base h e = Outcome.ok none → v.Base = "") ∧
      (∀ err, Base h e = Outcome.ok (some err) → v.Base = err.text) := by
  have hv : View h e = Outcome.ok
      { Base := match o.base with
          | some err => err.text
          | none => ""
        Message := o.message
        DisplayMessage := o.displayMessage
        ErrType := o.errType
        ErrCode := o.errCode
        Metadata := o.metadata
        StackTrace := o.stackTrace
        Reason := o.reason
        StatusCode := o.statusCode } := by
    simp only [View, he]
  refine ⟨_, hv, ?_, ?_, ?_, ?_, ?_, ?_, ?_, ?_, ?_, ?_⟩
  · simp [Message, readField, he]
  · simp [DisplayMessage, readField, he]
  · simp [ErrType, readField, he]
  · simp [ErrCode, readField, he]
  · simp [Metadata, readField, he]
  · simp [StackTrace, readField, he]
  · simp [Reason, readField, he]
  · simp [StatusCode, readField, he]
  · intro hb
    simp only [Base, readField, he] at hb
    injection hb with hb
    simp [hb]
  · intro err hb
    simp only [Base, readField, he] at hb
    injection hb with hb
    simp [hb]

/-- Witness for C15 on the exception `New("E1", "m1")`. -/
theorem view_projection_witness :
    deref sampleHeap (some 0) = Outcome.ok sampleStruct ∧
    View sampleHeap (some 0) = Outcome.ok
      { Base := "", Message := "m1", DisplayMessage := "", ErrType := "", ErrCode := "E1",
        Metadata := some 0, StackTrace := [], Reason := GoValue.nil, StatusCode := 0 } ∧
    ∃ v, View sampleHeap (some 0) = Outcome.ok v ∧
      Message sampleHeap (some 0) = Outcome.ok v.Message ∧
      DisplayMessage sampleHeap (some 0) = Outcome.ok v.DisplayMessage ∧
      ErrType sampleHeap (some 0) = Outcome.ok v.ErrType ∧
      ErrCode sampleHeap (some 0) = Outcome.ok v.ErrCode ∧
      Metadata sampleHeap (some 0) = Outcome.ok v.Metadata ∧
      StackTrace sampleHeap (some 0) = Outcome.ok v.StackTrace ∧
      Reason sampleHeap (some 0) = Outcome.ok v.Reason ∧
      StatusCode sampleHeap (some 0) = Outcome.ok v.StatusCode ∧
      (Base sampleHeap (some 0) = Outcome.ok none → v.Base = "") ∧
      (∀ err, Base sampleHeap (some 0) = Outcome.ok (some err) → v.Base = err.text) :=
  ⟨by decide, by decide, view_projection sampleHeap (some 0) sampleStruct (by decide)⟩

/-- C16: `ContainsAll(cs...)` is true exactly when `Contains(c)` holds for every `c` of
`cs`, so it is true for no codes; `ContainsAny(cs...)` is true exactly when `Contains(c)`
holds for some `c` of `cs`, so it is false for no codes; with only "E1" registered,
`ContainsAll("E1", "E2")` is false and `ContainsAny("E1", "E2")` is true. -/
theorem membership_queries {T : Type} [DecidableEq T] (m : Manager T) (cs : List T) :
    (ContainsAll m cs = true ↔ ∀ c ∈ cs, Contains m c = true) ∧
    (ContainsAny m cs = true ↔ ∃ c ∈ cs, Contains m c = true) ∧
    ContainsAll m [] = true ∧ ContainsAny m [] = false ∧
    ContainsAll sampleManager ["E1", "E2"] = false ∧
    ContainsAny sampleManager ["E1", "E2"] = true := by
  refine ⟨?_, ?_, rfl, rfl, by decide, by decide⟩
  · induction cs with
    | nil => simp [ContainsAll]
    | cons c cs ih =>
      cases hc : (cacheIndex m c).isSome <;> simp [ContainsAll, Contains, hc, ih]
  · induction cs with
    | nil => simp [ContainsAny]
    | cons c cs ih =>
      cases hc : (cacheIndex m c).isSome <;> simp [ContainsAny, Contains, hc, ih]

theorem mapIndex_isSome_iff {K V : Type} [DecidableEq K] (mp : GoMap K V) (c : K) :
    (mapIndex mp c).isSome = true ↔ c ∈ mp.map (fun kv => kv.1) := by
  induction mp with
  | nil => simp [mapIndex]
  | cons kv rest ih =>
    obtain ⟨k1, v1⟩ := kv
    by_cases hk : k1 = c
    · simp [mapIndex, hk]
    · have hck : ¬ c = k1 := fun hc => hk hc.symm
      simp only [mapIndex, hk, if_false, ih, List.map_cons, List.mem_cons, hck, false_or]

theorem mapIndex_eq_some_iff {K V : Type} [DecidableEq K] (mp : GoMap K V)
    (hnodup : (mp.map (fun kv => kv.1)).Nodup) (c : K) (v : V) :
    mapIndex mp c = some v ↔ (c, v) ∈ mp := by
  induction mp with
  | nil => simp [mapIndex]
  | cons kv rest ih =>
    obtain ⟨k1, v1⟩ := kv
    simp only [List.map_cons, List.nodup_cons] at hnodup
    obtain ⟨hnot, hrest⟩ := hnodup
    by_cases hk : k1 = c
    · subst hk
      simp only [mapIndex, if_true, List.mem_cons]
      constructor
      · intro hv
        injection hv with hv
        exact Or.inl (by rw [hv])
      · intro hmem
        rcases hmem with heq | hmem
        · injection heq with _ hv
          rw [hv]
        · exact absurd (List.mem_map.2 ⟨(k1, v), hmem, rfl⟩) hnot
    · simp only [mapIndex, hk, if_false, ih hrest, List.mem_cons]
      constructor
      · intro hmem
        exact Or.inr hmem
      · intro hmem
        rcases hmem with heq | hmem
        · injection heq with hc _
          exact absurd hc.symm hk
        · exact hmem

/-- C17: for a mapping `x` (a Go map: at most one entry per key; possibly the nil map),
`Set(x)` always returns, and the registry then is `x` itself: `Contains(c)` is true
exactly for the keys of `x`, a lookup finds exactly the entries of `x`, `Size()` is the
number of keys of `x`, and a code registered before that is no key of `x` is no longer
registered. -/
theorem set_replaces_mapping {T : Type} [DecidableEq T] (m : Manager T)
    (x : Option (GoMap T Exception)) (hx : (keysOf x).Nodup) :
    (Set m x).cache = x ∧
    (∀ c, Contains (Set m x) c = true ↔ c ∈ keysOf x) ∧
    (∀ c v, cacheIndex (Set m x) c = some v ↔ ∃ mp, x = some mp ∧ (c, v) ∈ mp) ∧
    Size (Set m x) = ((keysOf x).toFinset.card : Int) ∧
    (∀ c, Contains m c = true → c ∉ keysOf x → Contains (Set m x) c = false) := by
  have hcontains : ∀ c, Contains (Set m x) c = true ↔ c ∈ keysOf x := by
    intro c
    cases x with
    | none => simp [Contains, cacheIndex, Set, keysOf]
    | some mp => simpa [Contains, cacheIndex, Set, keysOf] using mapIndex_isSome_iff mp c
  refine ⟨rfl, hcontains, ?_, ?_, ?_⟩
  · intro c v
    cases x with
    | none => simp [cacheIndex, Set]
    | some mp =>
      simp only [cacheIndex, Set, Option.some.injEq, exists_eq_left']
      exact mapIndex_eq_some_iff mp hx c v
  · rw [List.toFinset_card_of_nodup hx]
    cases x with
    | none => simp [Size, Set, keysOf]
    | some mp => simp [Size, Set, keysOf]
  · intro c _ hnot
    cases hc : Contains (Set m x) c with
    | false => rfl
    | true => exact absurd ((hcontains c).1 hc) hnot

/-- Witness for C17: the registry holding "E1" is replaced by a mapping holding "E2". -/
theorem set_replaces_mapping_witness :
    (keysOf (some [("E2", (some 1 : Exception))])).Nodup ∧
    (Set sampleManager (some [("E2", some 1)])).cache = some [("E2", some 1)] ∧
    (∀ c, Contains (Set sampleManager (some [("E2", some 1)])) c = true ↔
      c ∈ keysOf (some [("E2", (some 1 : Exception))])) ∧
    (∀ c v, cacheIndex (Set sampleManager (some [("E2", some 1)])) c = some v ↔
      ∃ mp, some [("E2", (some 1 : Exception))] = some mp ∧ (c, v) ∈ mp) ∧
    Size (Set sampleManager (some [("E2", some 1)])) =
      ((keysOf (some [("E2", (some 1 : Exception))])).toFinset.card : Int) ∧
    (∀ c, Contains sampleManager c = true → c ∉ keysOf (some [("E2", (some 1 : Exception))]) →
      Contains (Set sampleManager (some [("E2", some 1)])) c = false) :=
  ⟨by decide, set_replaces_mapping sampleManager (some [("E2", some 1)]) (by decide)⟩

/-- C18, counterexample: `e := New("E1", "m1")`, then `Add(e)`; at that time the display
message of `e` is empty. After `e.WithDisplayMessage("changed")` on the caller's `e`,
`Get("E1")` returns an exception whose display message is "changed". -/
theorem add_keeps_alias_counterexample :
    DisplayMessage sampleHeap (some 0) = Outcome.ok "" ∧
    Add (NewManager : Manager String) sampleHeap (some 0) = Outcome.ok sampleManager ∧
    WithDisplayMessage sampleHeap (some 0) "changed" =
      Outcome.ok (some 0, ⟨[{ sampleStruct with displayMessage := "changed" }], [[]]⟩) ∧
    Get sampleManager
        (⟨[{ sampleStruct with displayMessage := "changed" }], [[]]⟩ : Heap String) "E1" =
      Outcome.ok (some 1,
        ⟨[{ sampleStruct with displayMessage := "changed" },
          { sampleStruct with displayMessage := "changed" }], [[]]⟩) ∧
    DisplayMessage
        (⟨[{ sampleStruct with displayMessage := "changed" },
          { sampleStruct with displayMessage := "changed" }], [[]]⟩ : Heap String) (some 1) =
      Outcome.ok "changed" := by
  decide

theorem AddAll_eq_addOneByOne {T : Type} [DecidableEq T] (h : Heap T) (es : List Exception) :
    ∀ m : Manager T, AddAll m h es = addOneByOne m h es := by
  induction es with
  | nil => intro m; rfl
  | cons e es ih =>
    intro m
    cases hc : cacheStore m h e with
    | panic c => simp [AddAll, addOneByOne, Add, hc]
    | ok m1 => simp [AddAll, addOneByOne, Add, hc, ih m1]

theorem AddAll_lookup {T : Type} [DecidableEq T] (h : Heap T) (es : List Exception) :
    ∀ (m m1 : Manager T), AddAll m h es = Outcome.ok m1 →
      ∀ k, cacheIndex m1 k =
        match lastWithCode h k es with
        | some e => some e
        | none => cacheIndex m k := by
  induction es with
  | nil =>
    intro m m1 hs k
    simp [AddAll] at hs
    simp [lastWithCode, hs]
  | cons e es ih =>
    intro m m1 hs k
    cases hc : cacheStore m h e with
    | panic c => simp [AddAll, hc] at hs
    | ok m2 =>
      simp [AddAll, hc] at hs
      obtain ⟨mp, o, hmp, ho, hm2⟩ := cacheStore_ok m m2 h e hc
      have hk := ErrCode_of_deref h e o ho
      rw [ih m2 m1 hs k]
      cases hl : lastWithCode h k es with
      | some e1 => simp [lastWithCode, hl]
      | none =>
        simp only [lastWithCode, hl, hk]
        by_cases hok : o.errCode = k
        · subst hok
          simp [hm2, cacheIndex, mapIndex_mapAssign_self]
        · have hne : ¬ (Outcome.ok o.errCode : Outcome T) = Outcome.ok k := by
            intro hcon
            injection hcon with hcon
            exact hok hcon
          simp [hne, hm2, cacheIndex, hmp,
            mapIndex_mapAssign_other mp o.errCode k e (fun hcon => hok hcon.symm)]

theorem lastWithCode_of_mem {T : Type} [DecidableEq T] (h : Heap T) (k : T)
    (es : List Exception) (e : Exception) (hmem : e ∈ es)
    (hk : ErrCode h e = Outcome.ok k) : ∃ e1, lastWithCode h k es = some e1 := by
  induction es with
  | nil => simp at hmem
  | cons x xs ih =>
    cases hl : lastWithCode h k xs with
    | some e1 => exact ⟨e1, by simp [lastWithCode, hl]⟩
    | none =>
      rcases List.mem_cons.1 hmem with hx | hx
      · subst hx
        exact ⟨e, by simp [lastWithCode, hl, hk]⟩
      · obtain ⟨e1, he1⟩ := ih hx
        rw [hl] at he1
        cases he1

theorem lastWithCode_none {T : Type} [DecidableEq T] (h : Heap T) (k : T)
    (es : List Exception) (hnone : ∀ e ∈ es, ErrCode h e ≠ Outcome.ok k) :
    lastWithCode h k es = none := by
  induction es with
  | nil => rfl
  | cons x xs ih =>
    have hx := hnone x (List.mem_cons_self x xs)
    simp [lastWithCode, ih (fun e he => hnone e (List.mem_cons_of_mem x he)), hx]

/-- C19: for every Manager and every list `es`, `AddAll(es...)` has the outcome of
`Add(e1)`, ..., `Add(en)` called in order;
when its exceptions are live and the map of the registry is allocated it returns, and
then a lookup of a code finds the last exception of `es` with that code if there is one,
and what was stored before otherwise; so every code occurring in `es` is registered and
entries under other codes are unchanged. -/
theorem addAll_is_batch_add {T : Type} [DecidableEq T] (m : Manager T) (h : Heap T)
    (es : List Exception) :
    AddAll m h es = addOneByOne m h es ∧
    ((∀ e ∈ es, ∃ o, deref h e = Outcome.ok o) → ∀ mp, m.cache = some mp →
      ∃ m1, AddAll m h es = Outcome.ok m1 ∧
        (∀ k, cacheIndex m1 k =
          match lastWithCode h k es with
          | some e => some e
          | none => cacheIndex m k) ∧
        (∀ e ∈ es, ∀ k, ErrCode h e = Outcome.ok k → Contains m1 k = true) ∧
        (∀ k, (∀ e ∈ es, ErrCode h e ≠ Outcome.ok k) → cacheIndex m1 k = cacheIndex m k)) := by
  refine ⟨AddAll_eq_addOneByOne h es m, ?_⟩
  intro hlive mp hmp
  obtain ⟨mp1, hadd⟩ := AddAll_returns h es hlive m mp hmp
  have hlook := AddAll_lookup h es m _ hadd
  refine ⟨_, hadd, hlook, ?_, ?_⟩
  · intro e he k hk
    obtain ⟨e1, he1⟩ := lastWithCode_of_mem h k es e he hk
    simp [Contains, hlook k, he1]
  · intro k hnone
    simp [hlook k, lastWithCode_none h k es hnone]


/-- Witness for C19: the batch `New("E1", "m1")`, `New("E1", "m2")` on the empty registry;
the second exception is the one stored. -/
theorem addAll_is_batch_add_witness :
    (∀ e ∈ [(some 0 : Exception), some 1],
      ∃ o, deref (New sampleHeap "E1" "m2").2 e = Outcome.ok o) ∧
    (NewManager : Manager String).cache = some [] ∧
    AddAll (NewManager : Manager String) (New sampleHeap "E1" "m2").2 [some 0, some 1] =
      Outcome.ok ⟨some [("E1", some 1)]⟩ ∧
    AddAll (NewManager : Manager String) (New sampleHeap "E1" "m2").2 [some 0, some 1] =
      addOneByOne NewManager (New sampleHeap "E1" "m2").2 [some 0, some 1] :=
  have hlive : ∀ e ∈ [(some 0 : Exception), some 1],
      ∃ o, deref (New sampleHeap "E1" "m2").2 e = Outcome.ok o := by
    intro e he
    simp only [List.mem_cons, List.mem_singleton, List.not_mem_nil, or_false] at he
    rcases he with he | he
    · rw [he]
      exact ⟨sampleStruct, by decide⟩
    · rw [he]
      exact ⟨{ sampleStruct with message := "m2", metadata := some 1 }, by decide⟩
  ⟨hlive, rfl, by decide,
   (addAll_is_batch_add NewManager (New sampleHeap "E1" "m2").2 [some 0, some 1]).1⟩

/-- C20, on the failing input: after `e := New("E1", "m1")` and `Set(nil)` the map of the
registry is the nil map, and `Add(e)` panics with an assignment to an entry of a nil map;
so do `AddAll(e)`, `SafeAdd(e)` and `SafeAddAll(e)`, although no code is registered. -/
theorem add_after_set_nil_panics :
    run (fun _ => "") (World.start : World String) [Call.new "E1" "m1", Call.set none] =
      Outcome.ok ⟨sampleHeap, ⟨none⟩⟩ ∧
    Contains (⟨none⟩ : Manager String) "E1" = false ∧
    Add (⟨none⟩ : Manager String) sampleHeap (some 0) =
      Outcome.panic Panic.nilMapAssignment ∧
    AddAll (⟨none⟩ : Manager String) sampleHeap [some 0] =
      Outcome.panic Panic.nilMapAssignment ∧
    SafeAdd (fun _ => "") (⟨none⟩ : Manager String) sampleHeap (some 0) =
      Outcome.panic Panic.nilMapAssignment ∧
    SafeAddAll (fun _ => "") (⟨none⟩ : Manager String) sampleHeap [some 0] =
      Outcome.panic Panic.nilMapAssignment := by
  decide

/-- On a registry whose map is allocated, `Add(e)` of a live exception returns and its
code is registered afterwards. -/
theorem Add_completes_of_allocated {T : Type} [DecidableEq T] (m : Manager T) (h : Heap T)
    (e : Exception) (o : exception T) (mp : GoMap T Exception)
    (he : deref h e = Outcome.ok o) (hmp : m.cache = some mp) :
    ∃ m1, Add m h e = Outcome.ok m1 ∧ Contains m1 o.errCode = true := by
  have hk := ErrCode_of_deref h e o he
  exact ⟨⟨some (mapAssign mp o.errCode e)⟩, by simp [Add, cacheStore, hk, hmp],
    by simp [Contains, cacheIndex, mapIndex_mapAssign_self]⟩

/-- On every registry whose map is the nil map, `Add(e)` of a live exception panics. -/
theorem Add_panics_of_nil_map {T : Type} [DecidableEq T] (m : Manager T) (h : Heap T)
    (e : Exception) (o : exception T) (he : deref h e = Outcome.ok o)
    (hmp : m.cache = none) : Add m h e = Outcome.panic Panic.nilMapAssignment := by
  simp [Add, cacheStore, ErrCode_of_deref h e o he, hmp]

theorem length_mapAssign {K V : Type} [DecidableEq K] (mp : GoMap K V) (k : K) (v : V) :
    (mapAssign mp k v).length =
      if (mapIndex mp k).isSome = true then mp.length else mp.length + 1 := by
  induction mp with
  | nil => simp [mapAssign, mapIndex]
  | cons kv rest ih =>
    obtain ⟨k1, v1⟩ := kv
    by_cases hk : k1 = k
    · simp [mapAssign, mapIndex, hk]
    · simp only [mapAssign, mapIndex, hk, if_false, List.length_cons, ih]
      split <;> rfl

theorem mapIndex_mapAssign_isSome {K V : Type} [DecidableEq K] (mp : GoMap K V) (k c : K)
    (v : V) : (mapIndex (mapAssign mp k v) c).isSome = (decide (c = k) || (mapIndex mp c).isSome) := by
  by_cases hc : c = k
  · subst hc
    simp [mapIndex_mapAssign_self]
  · simp [mapIndex_mapAssign_other mp k c v hc, hc]

theorem mem_codesOf {T : Type} (h : Heap T) (es : List Exception) (k : T) :
    k ∈ codesOf h es ↔ ∃ e ∈ es, ErrCode h e = Outcome.ok k := by
  induction es with
  | nil => simp [codesOf]
  | cons e es ih =>
    cases hc : ErrCode h e with
    | ok k1 =>
      simp only [codesOf, hc, List.mem_cons, ih]
      constructor
      · rintro (hk | ⟨x, hx, hxk⟩)
        · exact ⟨e, Or.inl rfl, by rw [hc, hk]⟩
        · exact ⟨x, Or.inr hx, hxk⟩
      · rintro ⟨x, hx | hx, hxk⟩
        · subst hx
          rw [hc] at hxk
          injection hxk with hxk
          exact Or.inl hxk.symm
        · exact Or.inr ⟨x, hx, hxk⟩
    | panic p =>
      simp only [codesOf, hc, List.mem_cons, ih]
      constructor
      · rintro ⟨x, hx, hxk⟩
        exact ⟨x, Or.inr hx, hxk⟩
      · rintro ⟨x, hx | hx, hxk⟩
        · subst hx
          rw [hc] at hxk
          cases hxk
        · exact ⟨x, hx, hxk⟩

theorem length_codesOf_le {T : Type} (h : Heap T) (es : List Exception) :
    (codesOf h es).length ≤ es.length := by
  induction es with
  | nil => simp [codesOf]
  | cons e es ih =>
    cases hc : ErrCode h e with
    | ok k1 => simp [codesOf, hc, ih]
    | panic p =>
      simp only [codesOf, hc, List.length_cons]
      omega

theorem lastWithCode_some {T : Type} [DecidableEq T] (h : Heap T) (k : T)
    (es : List Exception) (e : Exception) (hl : lastWithCode h k es = some e) :
    e ∈ es ∧ ErrCode h e = Outcome.ok k := by
  induction es with
  | nil => simp [lastWithCode] at hl
  | cons x xs ih =>
    cases hx : lastWithCode h k xs with
    | some e1 =>
      simp only [lastWithCode, hx] at hl
      injection hl with hl
      subst hl
      obtain ⟨hmem, hk⟩ := ih hx
      exact ⟨List.mem_cons_of_mem x hmem, hk⟩
    | none =>
      simp only [lastWithCode, hx] at hl
      by_cases hxk : ErrCode h x = Outcome.ok k
      · simp only [hxk, if_true] at hl
        injection hl with hl
        subst hl
        exact ⟨List.mem_cons_self _ _, hxk⟩
      · simp [hxk] at hl

/-- The number of entries after `AddAll`: one more for every distinct code of the batch
that was not a key before. -/
theorem AddAll_length {T : Type} [DecidableEq T] (h : Heap T) (es : List Exception) :
    ∀ (mp mp1 : GoMap T Exception),
      AddAll (⟨some mp⟩ : Manager T) h es = Outcome.ok ⟨some mp1⟩ →
      mp1.length = mp.length +
        ((codesOf h es).toFinset.filter (fun k => (mapIndex mp k).isSome = false)).card := by
  induction es with
  | nil =>
    intro mp mp1 hs
    simp [AddAll] at hs
    simp [codesOf, hs]
  | cons e es ih =>
    intro mp mp1 hs
    cases hc : cacheStore (⟨some mp⟩ : Manager T) h e with
    | panic c => simp [AddAll, hc] at hs
    | ok m2 =>
      simp only [AddAll, hc] at hs
      obtain ⟨mp0, o, hmp0, ho, hm2⟩ := cacheStore_ok _ m2 h e hc
      simp only [Option.some.injEq] at hmp0
      subst hmp0
      subst hm2
      have hk := ErrCode_of_deref h e o ho
      rw [ih _ mp1 hs, length_mapAssign]
      have hfilter : (codesOf h es).toFinset.filter
            (fun k => (mapIndex (mapAssign mp o.errCode e) k).isSome = false)
          = ((codesOf h es).toFinset.filter
            (fun k => (mapIndex mp k).isSome = false)).erase o.errCode := by
        ext k
        simp only [Finset.mem_filter, Finset.mem_erase, mapIndex_mapAssign_isSome,
          Bool.or_eq_false_iff, decide_eq_false_iff_not]
        tauto
      rw [hfilter]
      simp only [codesOf, hk, List.toFinset_cons, Finset.filter_insert]
      by_cases hin : (mapIndex mp o.errCode).isSome = true
      · have hnot : ¬ (mapIndex mp o.errCode).isSome = false := by simp [hin]
        have hmem : o.errCode ∉ (codesOf h es).toFinset.filter
            (fun k => (mapIndex mp k).isSome = false) := by
          intro hcon
          exact hnot (Finset.mem_filter.1 hcon).2
        rw [if_pos hin, if_neg hnot, Finset.erase_eq_of_not_mem hmem]
      · have hfalse : (mapIndex mp o.errCode).isSome = false := by
          simpa using hin
        rw [if_neg hin, if_pos hfalse]
        have hcard := Finset.card_erase_add_one
          (Finset.mem_insert_self o.errCode ((codesOf h es).toFinset.filter
            (fun k => (mapIndex mp k).isSome = false)))
        rw [Finset.erase_insert_eq_erase] at hcard
        omega

theorem toFinset_card_lt_of_not_nodup {α : Type} [DecidableEq α] (l : List α)
    (hl : ¬ l.Nodup) : l.toFinset.card < l.length := by
  have hle := List.toFinset_card_le l
  have hne : l.toFinset.card ≠ l.length := by
    intro heq
    apply hl
    have h1 := (Multiset.toFinset_card_eq_card_iff_nodup (m := (l : Multiset α))).1
      (by simpa using heq)
    simpa using h1
  omega

/-- C21: for a registry whose map is allocated and a batch `es` of exceptions none of
whose codes is registered, `SafeAddAll(es...)` returns nil whether or not two exceptions
of `es` share a code; afterwards, for each code occurring in `es`, the registry holds the
last exception of `es` with that code, and `Size()` has grown by the number of distinct
codes of `es`, which is at most `len(es)` and smaller when a code occurs twice. -/
theorem safeAddAll_ignores_batch_duplicates {T : Type} [DecidableEq T] [ErrorCode T]
    (FormatFloat : Nat → String) (m : Manager T) (h : Heap T) (es : List Exception)
    (mp : GoMap T Exception) (hlive : ∀ e ∈ es, ∃ o, deref h e = Outcome.ok o)
    (hmp : m.cache = some mp) (hfree : ∀ k ∈ codesOf h es, Contains m k = false) :
    ∃ m1, SafeAddAll FormatFloat m h es = Outcome.ok (none, m1) ∧
      (∀ k ∈ codesOf h es, ∃ e, lastWithCode h k es = some e ∧ e ∈ es ∧
        ErrCode h e = Outcome.ok k ∧ cacheIndex m1 k = some e) ∧
      Size m1 = Size m + ((codesOf h es).toFinset.card : Int) ∧
      (codesOf h es).toFinset.card ≤ es.length ∧
      (¬ (codesOf h es).Nodup → (codesOf h es).toFinset.card < es.length) := by
  have hfree1 : ∀ e ∈ es, ∀ o, deref h e = Outcome.ok o → Contains m o.errCode = false := by
    intro e he o ho
    exact hfree o.errCode ((mem_codesOf h es o.errCode).2 ⟨e, he, ErrCode_of_deref h e o ho⟩)
  have hf := firstCollision_none m h es hlive hfree1
  obtain ⟨mp1, hadd⟩ := AddAll_returns h es hlive m mp hmp
  have hlook := AddAll_lookup h es m _ hadd
  have hm : m = ⟨some mp⟩ := by
    cases m
    simp only at hmp
    rw [hmp]
  refine ⟨⟨some mp1⟩, by simp [SafeAddAll, hf, hadd], ?_, ?_, ?_, ?_⟩
  · intro k hk
    obtain ⟨e, he, hek⟩ := (mem_codesOf h es k).1 hk
    obtain ⟨e1, he1⟩ := lastWithCode_of_mem h k es e he hek
    obtain ⟨hmem, hcode⟩ := lastWithCode_some h k es e1 he1
    exact ⟨e1, he1, hmem, hcode, by simp [hlook k, he1]⟩
  · rw [hm] at hadd
    have hlen := AddAll_length h es mp mp1 hadd
    have hall : (codesOf h es).toFinset.filter (fun k => (mapIndex mp k).isSome = false)
        = (codesOf h es).toFinset := by
      apply Finset.filter_true_of_mem
      intro k hk
      have := hfree k (List.mem_toFinset.1 hk)
      simpa [Contains, cacheIndex, hmp] using this
    rw [hall] at hlen
    simp only [Size, hmp, hlen]
    push_cast
    rfl
  · exact le_trans (List.toFinset_card_le _) (length_codesOf_le h es)
  · intro hdup
    exact lt_of_lt_of_le (toFinset_card_lt_of_not_nodup _ hdup) (length_codesOf_le h es)

/-- Witness for C21: the batch `New("E1", "m1")`, `New("E1", "m2")` on the empty registry
returns nil, the second exception is the one stored, and the size is 1. -/
theorem safeAddAll_ignores_batch_duplicates_witness :
    (∀ e ∈ [(some 0 : Exception), some 1],
      ∃ o, deref (New sampleHeap "E1" "m2").2 e = Outcome.ok o) ∧
    (NewManager : Manager String).cache = some [] ∧
    (∀ k ∈ codesOf (New sampleHeap "E1" "m2").2 [some 0, some 1],
      Contains (NewManager : Manager String) k = false) ∧
    SafeAddAll (fun _ => "") (NewManager : Manager String) (New sampleHeap "E1" "m2").2
        [some 0, some 1] = Outcome.ok (none, ⟨some [("E1", some 1)]⟩) ∧
    Size (⟨some [("E1", some 1)]⟩ : Manager String) = 1 ∧
    ∃ m1, SafeAddAll (fun _ => "") (NewManager : Manager String) (New sampleHeap "E1" "m2").2
        [some 0, some 1] = Outcome.ok (none, m1) ∧
      (∀ k ∈ codesOf (New sampleHeap "E1" "m2").2 [some 0, some 1],
        ∃ e, lastWithCode (New sampleHeap "E1" "m2").2 k [some 0, some 1] = some e ∧
          e ∈ [(some 0 : Exception), some 1] ∧
          ErrCode (New sampleHeap "E1" "m2").2 e = Outcome.ok k ∧ cacheIndex m1 k = some e) ∧
      Size m1 = Size (NewManager : Manager String) +
        ((codesOf (New sampleHeap "E1" "m2").2 [some 0, some 1]).toFinset.card : Int) ∧
      (codesOf (New sampleHeap "E1" "m2").2 [some 0, some 1]).toFinset.card ≤
        [(some 0 : Exception), some 1].length ∧
      (¬ (codesOf (New sampleHeap "E1" "m2").2 [some 0, some 1]).Nodup →
        (codesOf (New sampleHeap "E1" "m2").2 [some 0, some 1]).toFinset.card <
          [(some 0 : Exception), some 1].length) :=
  have hlive : ∀ e ∈ [(some 0 : Exception), some 1],
      ∃ o, deref (New sampleHeap "E1" "m2").2 e = Outcome.ok o := by
    intro e he
    simp only [List.mem_cons, List.mem_singleton, List.not_mem_nil, or_false] at he
    rcases he with he | he
    · rw [he]
      exact ⟨sampleStruct, by decide⟩
    · rw [he]
      exact ⟨{ sampleStruct with message := "m2", metadata := some 1 }, by decide⟩
  have hfree : ∀ k ∈ codesOf (New sampleHeap "E1" "m2").2 [some 0, some 1],
      Contains (NewManager : Manager String) k = false := fun _ _ => rfl
  ⟨hlive, rfl, hfree, by decide, by decide,
   safeAddAll_ignores_batch_duplicates (fun _ => "") NewManager (New sampleHeap "E1" "m2").2
     [some 0, some 1] [] hlive rfl hfree⟩

/-- `SafeAdd` returns nil only with the registry `Add` produces. -/
theorem SafeAdd_nil_eq_Add {T : Type} [DecidableEq T] [ErrorCode T]
    (FormatFloat : Nat → String) (m r : Manager T) (h : Heap T) (e : Exception)
    (hs : SafeAdd FormatFloat m h e = Outcome.ok (none, r)) : Add m h e = Outcome.ok r := by
  simp only [SafeAdd] at hs
  cases hk : ErrCode h e with
  | panic p => simp [hk] at hs
  | ok k =>
    simp only [hk] at hs
    split at hs
    · simp at hs
    · cases ha : Add m h e with
      | panic p => simp [ha] at hs
      | ok m2 =>
        simp [ha] at hs
        rw [hs]

/-- `SafeAddAll` returns nil only with the registry `AddAll` produces. -/
theorem SafeAddAll_nil_eq_AddAll {T : Type} [DecidableEq T] [ErrorCode T]
    (FormatFloat : Nat → String) (m r : Manager T) (h : Heap T) (es : List Exception)
    (hs : SafeAddAll FormatFloat m h es = Outcome.ok (none, r)) :
    AddAll m h es = Outcome.ok r := by
  simp only [SafeAddAll] at hs
  cases hf : firstCollision m h es with
  | panic p => simp [hf] at hs
  | ok fc =>
    cases fc with
    | some k => simp [hf] at hs
    | none =>
      simp only [hf] at hs
      cases ha : AddAll m h es with
      | panic p => simp [ha] at hs
      | ok m2 =>
        simp [ha] at hs
        rw [hs]

/-- C18, amended: the registry holds the inserted instance itself, not a copy. On a
registry whose map is allocated, `Add(e)` stores `e` under its code, and so does
`SafeAdd(e)` whenever it returns nil; `AddAll(es...)` stores `e` under its code when `e` is
the last exception of `es` with that code, and so does `SafeAddAll(es...)` whenever it
returns nil. Whenever a registry stores `e` under its code, `Get(e.ErrCode())` returns a
copy of the struct `e` has at the time of the `Get`: the struct `e` had at the insert as
long as `e` is not mutated, and the mutated struct after a `With*` call on the caller's
`e`. -/
theorem add_stores_the_instance {T : Type} [DecidableEq T] [ErrorCode T]
    (FormatFloat : Nat → String) (m : Manager T) (h : Heap T) (e : Exception)
    (o : exception T) (mp : GoMap T Exception) (es : List Exception)
    (he : deref h e = Outcome.ok o) (hmp : m.cache = some mp)
    (hlive : ∀ x ∈ es, ∃ ox, deref h x = Outcome.ok ox)
    (hlast : lastWithCode h o.errCode es = some e) :
    (∃ ma, Add m h e = Outcome.ok ma ∧ cacheIndex ma o.errCode = some e ∧
      (∀ r, SafeAdd FormatFloat m h e = Outcome.ok (none, r) → r = ma) ∧
      (Contains m o.errCode = false → SafeAdd FormatFloat m h e = Outcome.ok (none, ma))) ∧
    (∃ mb, AddAll m h es = Outcome.ok mb ∧ cacheIndex mb o.errCode = some e ∧
      (∀ r, SafeAddAll FormatFloat m h es = Outcome.ok (none, r) → r = mb) ∧
      ((∀ k ∈ codesOf h es, Contains m k = false) →
        SafeAddAll FormatFloat m h es = Outcome.ok (none, mb))) ∧
    (∀ m1 : Manager T, cacheIndex m1 o.errCode = some e →
      (∃ g h1, Get m1 h o.errCode = Outcome.ok (g, h1) ∧ deref h1 g = Outcome.ok o) ∧
      ∀ μ : Mutator, ∃ h2 o2, μ.call h e = Outcome.ok (e, h2) ∧
        deref h2 e = Outcome.ok o2 ∧
        ∃ g h3, Get m1 h2 o.errCode = Outcome.ok (g, h3) ∧ deref h3 g = Outcome.ok o2) := by
  have hk := ErrCode_of_deref h e o he
  refine ⟨?_, ?_, ?_⟩
  · have hadd : Add m h e = Outcome.ok ⟨some (mapAssign mp o.errCode e)⟩ := by
      simp [Add, cacheStore, hk, hmp]
    refine ⟨_, hadd, by simp [cacheIndex, mapIndex_mapAssign_self], ?_, ?_⟩
    · intro r hr
      have h1 := SafeAdd_nil_eq_Add FormatFloat m r h e hr
      rw [hadd] at h1
      injection h1 with h1
      exact h1.symm
    · intro hc
      simp only [Contains] at hc
      simp [SafeAdd, hk, hc, hadd]
  · obtain ⟨mp1, hadd⟩ := AddAll_returns h es hlive m mp hmp
    have hlook := AddAll_lookup h es m _ hadd
    refine ⟨_, hadd, by simp [hlook o.errCode, hlast], ?_, ?_⟩
    · intro r hr
      have h1 := SafeAddAll_nil_eq_AddAll FormatFloat m r h es hr
      rw [hadd] at h1
      injection h1 with h1
      exact h1.symm
    · intro hfree
      have hfree1 : ∀ x ∈ es, ∀ ox, deref h x = Outcome.ok ox →
          Contains m ox.errCode = false := by
        intro x hx ox hox
        exact hfree ox.errCode
          ((mem_codesOf h es ox.errCode).2 ⟨x, hx, ErrCode_of_deref h x ox hox⟩)
      have hf := firstCollision_none m h es hlive hfree1
      simp [SafeAddAll, hf, hadd]
  · intro m1 hci
    refine ⟨⟨_, _, by simp [Get, hci, Clone_of_deref h e o he], deref_append_new h o⟩, ?_⟩
    intro μ
    obtain ⟨f, hf⟩ := Mutator.call_eq_writeField (T := T) μ
    obtain ⟨h2, hw, hd2, _, _, _⟩ := writeField_overwrites f h e o he
    exact ⟨h2, f o, by rw [hf]; exact hw, hd2, _, _,
      by simp [Get, hci, Clone_of_deref h2 e (f o) hd2], deref_append_new h2 (f o)⟩

/-- Witness for the amended C18: the batch `New("E1", "m1")`, `New("E1", "m2")` on the
empty registry, with the second exception as `e`. -/
theorem add_stores_the_instance_witness :
    deref (New sampleHeap "E1" "m2").2 (some 1) =
      Outcome.ok { sampleStruct with message := "m2", metadata := some 1 } ∧
    (NewManager : Manager String).cache = some [] ∧
    (∀ x ∈ [(some 0 : Exception), some 1],
      ∃ ox, deref (New sampleHeap "E1" "m2").2 x = Outcome.ok ox) ∧
    lastWithCode (New sampleHeap "E1" "m2").2 "E1" [some 0, some 1] = some (some 1) ∧
    AddAll (NewManager : Manager String) (New sampleHeap "E1" "m2").2 [some 0, some 1] =
      Outcome.ok ⟨some [("E1", some 1)]⟩ ∧
    ∃ mb, AddAll (NewManager : Manager String) (New sampleHeap "E1" "m2").2 [some 0, some 1] =
        Outcome.ok mb ∧
      cacheIndex mb "E1" = some (some 1) ∧
      (∀ r, SafeAddAll (fun _ => "") (NewManager : Manager String) (New sampleHeap "E1" "m2").2
          [some 0, some 1] = Outcome.ok (none, r) → r = mb) ∧
      ((∀ k ∈ codesOf (New sampleHeap "E1" "m2").2 [some 0, some 1],
          Contains (NewManager : Manager String) k = false) →
        SafeAddAll (fun _ => "") (NewManager : Manager String) (New sampleHeap "E1" "m2").2
          [some 0, some 1] = Outcome.ok (none, mb)) :=
  have hlive : ∀ x ∈ [(some 0 : Exception), some 1],
      ∃ ox, deref (New sampleHeap "E1" "m2").2 x = Outcome.ok ox := by
    intro x hx
    simp only [List.mem_cons, List.mem_singleton, List.not_mem_nil, or_false] at hx
    rcases hx with hx | hx
    · rw [hx]
      exact ⟨sampleStruct, by decide⟩
    · rw [hx]
      exact ⟨{ sampleStruct with message := "m2", metadata := some 1 }, by decide⟩
  ⟨by decide, rfl, hlive, by decide, by decide,
   (add_stores_the_instance (fun _ => "") NewManager (New sampleHeap "E1" "m2").2 (some 1)
      { sampleStruct with message := "m2", metadata := some 1 } [] [some 0, some 1]
      (by decide) rfl hlive (by decide)).2.1⟩

end Redfox
